import Mathlib

/-!
Verification of the `hx` HTMX header helper library.

The development shallowly embeds the Go sources:
  * `main.go` — the header-decorator chain (`SetHeaders`, `SetHeader`) and the
    trigger-header merge engine (`trigger`, `triggerWithDetail` and their
    exported wrappers);
  * `types.go` — the `Swap` enumeration and its string codec, plus the
    `TriggerEvent` data type;
  * `middleware/middleware.go` — the request-header extraction middleware.

Headers are modelled as association lists from header name to raw string
value.  JSON values are modelled by the inductive type `Json`; Go's
`json.Marshal` / `json.Unmarshal` on `map[string]interface{}` and
`interface{}` are modelled by an executable renderer (`Json.render`, which
sorts object keys and escapes strings the way the `encoding/json` encoder
does, including its control-character, HTML and line-separator `\uXXXX`
escapes) and an executable recursive-descent parser (`parseTop`, which
follows the `encoding/json` grammar: numbers carry fractions and exponents
and reject leading zeros, strings accept the full escape set including
`\uXXXX` with surrogate pairs and reject raw control characters).  JSON
numbers are carried as their literal characters rather than as floats;
everything the claims state about numeric values factors through the
parser, so only the accept/reject behaviour and the literal text are
relied on.  `strings.TrimSpace` is modelled over the full Unicode
`White_Space` set (`isGoSpace`).  Unmarshalling a prior of JSON `null`
into the event map succeeds in Go and leaves the map `nil`, so the
subsequent map assignment panics; the merge functions therefore return an
`Option`, with `none` modelling that panic.  Go `interface{}` detail
payloads are modelled by `GoValue`: a value that has a JSON
representation, or a value (such as a channel or a function) whose
serialization fails.
-/

namespace Hx

/-! ### Characters and raw header strings -/

/-- Whitespace accepted between JSON tokens by `encoding/json` (space, tab,
newline and carriage return — the scanner's `isSpace`). -/
def isSpaceChar (c : Char) : Bool :=
  c = ' ' || c = '\t' || c = '\n' || c = '\r'

/-- White space as trimmed by `strings.TrimSpace`, which trims on
`unicode.IsSpace`: the ASCII spaces `\t \n \v \f \r ' '` and the Unicode
`White_Space` code points (NEL, NBSP, ogham space mark, the en/em spaces
U+2000–U+200A, line and paragraph separators, narrow no-break space,
medium mathematical space and ideographic space). -/
def isGoSpace (c : Char) : Bool :=
  (0x9 ≤ c.toNat && c.toNat ≤ 0xD) || c = ' ' ||
    c.toNat = 0x85 || c.toNat = 0xA0 || c.toNat = 0x1680 ||
    (0x2000 ≤ c.toNat && c.toNat ≤ 0x200A) ||
    c.toNat = 0x2028 || c.toNat = 0x2029 || c.toNat = 0x202F ||
    c.toNat = 0x205F || c.toNat = 0x3000

/-- Model of `strings.TrimSpace` on the character list of a string. -/
def trimChars (cs : List Char) : List Char :=
  ((cs.dropWhile isGoSpace).reverse.dropWhile isGoSpace).reverse

/-- Model of `strings.TrimSpace`. -/
def trimS (s : String) : String :=
  String.mk (trimChars s.data)

/-- Model of `strings.Split(s, ",")` on character lists: splitting on `','`
always yields one more piece than there are separators, so the empty string
yields `[[]]`. -/
def splitCommaChars : List Char → List (List Char)
  | [] => [[]]
  | c :: t =>
    if c = ',' then [] :: splitCommaChars t
    else
      match splitCommaChars t with
      | [] => [[c]]
      | p :: ps => (c :: p) :: ps

/-- Model of `strings.Split(s, ",")`. -/
def splitComma (s : String) : List String :=
  (splitCommaChars s.data).map String.mk

/-- Model of `strings.Join(l, ", ")` on character lists. -/
def joinChars : List (List Char) → List Char
  | [] => []
  | [x] => x
  | x :: y :: ys => x ++ ',' :: ' ' :: joinChars (y :: ys)

/-- Model of `strings.Join(l, ", ")`. -/
def joinCS (l : List String) : String :=
  String.mk (joinChars (l.map String.data))

/-! ### The JSON value model -/

mutual

inductive Json where
  | null : Json
  | bool (b : Bool) : Json
  | num (lit : List Char) : Json
  | str (s : String) : Json
  | arr (elems : JArr) : Json
  | obj (fields : JObj) : Json

inductive JArr where
  | nil : JArr
  | cons (hd : Json) (tl : JArr) : JArr

inductive JObj where
  | nil : JObj
  | cons (key : String) (val : Json) (tl : JObj) : JObj

end

deriving instance DecidableEq for Json
deriving instance DecidableEq for JArr
deriving instance DecidableEq for JObj

/-- Convert an association list into a `JObj` field list. -/
def JObj.ofList : List (String × Json) → JObj
  | [] => .nil
  | (k, v) :: t => .cons k v (JObj.ofList t)

/-- Convert a `JObj` field list into an association list. -/
def JObj.toList : JObj → List (String × Json)
  | .nil => []
  | .cons k v t => (k, v) :: JObj.toList t

/-- Lowercase hexadecimal digit character for a value below 16 (the `hex`
table of the `encoding/json` encoder). -/
def hexDigitChar (n : Nat) : Char :=
  if n < 10 then Char.ofNat (48 + n) else Char.ofNat (87 + n)

/-- A `\uXXXX` escape sequence in the encoder's lowercase hexadecimal. -/
def uEsc (n : Nat) : List Char :=
  '\\' :: 'u' :: hexDigitChar (n / 4096 % 16) :: hexDigitChar (n / 256 % 16) ::
    hexDigitChar (n / 16 % 16) :: [hexDigitChar (n % 16)]

/-- String escaping as performed by the `encoding/json` encoder (with its
default HTML escaping): backslash escapes for quote, backslash, newline,
carriage return and tab; `\u00xx` escapes for the remaining control
characters and for `<`, `>`, `&`; `\u2028` and `\u2029` escapes for the line and
paragraph separators; all other characters pass through. -/
def escChars : List Char → List Char
  | [] => []
  | c :: cs =>
    (if c = '"' then '\\' :: ['"']
     else if c = '\\' then '\\' :: ['\\']
     else if c = '\n' then '\\' :: ['n']
     else if c = '\r' then '\\' :: ['r']
     else if c = '\t' then '\\' :: ['t']
     else if c.toNat < 0x20 ∨ c = '<' ∨ c = '>' ∨ c = '&' then uEsc c.toNat
     else if c.toNat = 0x2028 ∨ c.toNat = 0x2029 then uEsc c.toNat
     else [c]) ++ escChars cs

mutual

/-- Serialized form of a JSON value, as produced by `json.Marshal`:
no whitespace, `,` and `:` separators. -/
def jsonChars : Json → List Char
  | .num lit => lit
  | .str s => '"' :: (escChars s.data ++ ['"'])
  | .bool false => 'f' :: 'a' :: 'l' :: 's' :: ['e']
  | .null => 'n' :: 'u' :: 'l' :: ['l']
  | .bool true => 't' :: 'r' :: 'u' :: ['e']
  | .arr xs => '[' :: (arrChars xs ++ [']'])
  | .obj fs => '{' :: (objChars fs ++ ['}'])

def arrChars : JArr → List Char
  | .nil => []
  | .cons x xs =>
    jsonChars x ++ (match xs with | .nil => [] | .cons _ _ => ',' :: arrChars xs)

def objChars : JObj → List Char
  | .nil => []
  | .cons k v fs =>
    '"' :: (escChars k.data ++
      ('"' :: ':' :: (jsonChars v ++
        (match fs with | .nil => [] | .cons _ _ _ => ',' :: objChars fs))))

end

/-- Model of `json.Marshal` output for a JSON value. -/
def Json.render (j : Json) : String := String.mk (jsonChars j)

mutual

/-- Fuel sufficient for `parseVal` to parse the serialized form of a value. -/
def jneed : Json → Nat
  | .obj fs => 1 + jneedO fs
  | .arr xs => 1 + jneedA xs
  | .null => 1
  | .num _ => 1
  | .bool _ => 1
  | .str _ => 1

/-- Fuel sufficient for `parseElems` on the serialized elements. -/
def jneedA : JArr → Nat
  | .nil => 0
  | .cons x xs => 1 + jneed x + jneedA xs

/-- Fuel sufficient for `parseFields` on the serialized fields. -/
def jneedO : JObj → Nat
  | .nil => 0
  | .cons _ v fs => 1 + jneed v + jneedO fs

end

/-- Scan the integer part of a JSON numeral: a single `0`, or a nonzero
digit followed by further digits (`encoding/json` rejects leading zeros). -/
def scanIntPart : List Char → Option (List Char × List Char)
  | [] => none
  | c :: r =>
    if c = '0' then some (['0'], r)
    else if Char.isDigit c then
      some (c :: r.takeWhile Char.isDigit, r.dropWhile Char.isDigit)
    else none

/-- Scan an optional fraction part: a dot followed by one or more digits,
consumed only when at least one digit follows the dot. -/
def scanFracPart : List Char → List Char × List Char
  | [] => ([], [])
  | c :: r =>
    if c = '.' then
      match r.takeWhile Char.isDigit with
      | [] => ([], c :: r)
      | d :: ds => (c :: d :: ds, r.dropWhile Char.isDigit)
    else ([], c :: r)

/-- Scan an optional exponent part: `e` or `E`, an optional sign, and one
or more digits, consumed only when the digits are present. -/
def scanExpPart : List Char → List Char × List Char
  | [] => ([], [])
  | c :: r =>
    if c = 'e' ∨ c = 'E' then
      match r with
      | [] => ([], c :: r)
      | d :: r2 =>
        if d = '+' ∨ d = '-' then
          match r2.takeWhile Char.isDigit with
          | [] => ([], c :: r)
          | x :: xs => (c :: d :: x :: xs, r2.dropWhile Char.isDigit)
        else
          match r.takeWhile Char.isDigit with
          | [] => ([], c :: r)
          | x :: xs => (c :: x :: xs, r.dropWhile Char.isDigit)
    else ([], c :: r)

/-- Scan a maximal numeral of the `encoding/json` number grammar: an
optional minus sign, an integer part without leading zeros, an optional
fraction and an optional exponent, carried as the literal characters. -/
def parseNum : List Char → Option (Json × List Char)
  | [] => none
  | c :: r =>
    if c = '-' then
      match scanIntPart r with
      | none => none
      | some (ip, r1) =>
        some (.num ('-' :: (ip ++ (scanFracPart r1).1 ++ (scanExpPart (scanFracPart r1).2).1)),
          (scanExpPart (scanFracPart r1).2).2)
    else
      match scanIntPart (c :: r) with
      | none => none
      | some (ip, r1) =>
        some (.num (ip ++ (scanFracPart r1).1 ++ (scanExpPart (scanFracPart r1).2).1),
          (scanExpPart (scanFracPart r1).2).2)

/-- A well-formed number literal: one the number scanner consumes in full,
i.e. exactly the numerals of the `encoding/json` grammar. -/
def numLitWF (lit : List Char) : Bool :=
  match parseNum lit with
  | some (j, rest) => rest.isEmpty && decide (j = Json.num lit)
  | none => false

mutual

/-- Well-formedness of a JSON value: every number literal is a signed
decimal numeral.  The parser only produces well-formed values. -/
def Json.wf : Json → Bool
  | .null => true
  | .bool _ => true
  | .num lit => numLitWF lit
  | .str _ => true
  | .arr xs => JArr.wf xs
  | .obj fs => JObj.wf fs

def JArr.wf : JArr → Bool
  | .nil => true
  | .cons x xs => x.wf && JArr.wf xs

def JObj.wf : JObj → Bool
  | .nil => true
  | .cons _ v fs => v.wf && JObj.wf fs

end

/-! ### The JSON parser (model of `json.Unmarshal` into `interface{}`) -/

/-- Skip JSON inter-token whitespace. -/
def skipWs (s : List Char) : List Char := s.dropWhile isSpaceChar

/-- Consume an expected literal character sequence. -/
def expectChars : List Char → List Char → Option (List Char)
  | [], s => some s
  | _ :: _, [] => none
  | c :: cs, d :: s => if c = d then expectChars cs s else none

/-- Value of one hexadecimal digit character, upper or lower case. -/
def hexVal (c : Char) : Option Nat :=
  if '0' ≤ c ∧ c ≤ '9' then some (c.toNat - 48)
  else if 'a' ≤ c ∧ c ≤ 'f' then some (c.toNat - 87)
  else if 'A' ≤ c ∧ c ≤ 'F' then some (c.toNat - 55)
  else none

/-- The value of four hexadecimal digits. -/
def hex4 (a b c d : Nat) : Nat := ((a * 16 + b) * 16 + c) * 16 + d

/-- Decode one single-character escape inside a JSON string literal (the
`\u` escapes are handled separately by `parseStringBody`). -/
def unescapeChar (c : Char) : Option Char :=
  if c = '"' then some '"'
  else if c = '\\' then some '\\'
  else if c = '/' then some '/'
  else if c = 'b' then some (Char.ofNat 0x8)
  else if c = 'f' then some (Char.ofNat 0xC)
  else if c = 'n' then some '\n'
  else if c = 't' then some '\t'
  else if c = 'r' then some '\r'
  else none

/-- Parse the body of a JSON string literal (after the opening quote),
returning the decoded characters and the input after the closing quote,
as the `encoding/json` scanner and `unquote` do: raw control characters
are rejected, `\uXXXX` escapes are decoded (a high surrogate combines
with an immediately following low-surrogate escape; an unpaired surrogate
becomes U+FFFD without consuming a following escape), and the remaining
escapes go through `unescapeChar`. -/
def parseStringBody : List Char → Option (List Char × List Char)
  | [] => none
  | '\\' :: 'u' :: h1 :: h2 :: h3 :: h4 :: '\\' :: 'u' :: g1 :: g2 :: g3 :: g4 :: rest3 =>
    match hexVal h1, hexVal h2, hexVal h3, hexVal h4 with
    | some x1, some x2, some x3, some x4 =>
      if hex4 x1 x2 x3 x4 < 0xD800 ∨ 0xDFFF < hex4 x1 x2 x3 x4 then
        match parseStringBody ('\\' :: 'u' :: g1 :: g2 :: g3 :: g4 :: rest3) with
        | some (cs, r) => some (Char.ofNat (hex4 x1 x2 x3 x4) :: cs, r)
        | none => none
      else if hex4 x1 x2 x3 x4 ≤ 0xDBFF then
        match hexVal g1, hexVal g2, hexVal g3, hexVal g4 with
        | some y1, some y2, some y3, some y4 =>
          if 0xDC00 ≤ hex4 y1 y2 y3 y4 ∧ hex4 y1 y2 y3 y4 ≤ 0xDFFF then
            match parseStringBody rest3 with
            | some (cs, r) =>
              some (Char.ofNat (0x10000 + (hex4 x1 x2 x3 x4 - 0xD800) * 0x400
                  + (hex4 y1 y2 y3 y4 - 0xDC00)) :: cs, r)
            | none => none
          else
            match parseStringBody ('\\' :: 'u' :: g1 :: g2 :: g3 :: g4 :: rest3) with
            | some (cs, r) => some (Char.ofNat 0xFFFD :: cs, r)
            | none => none
        | _, _, _, _ =>
          match parseStringBody ('\\' :: 'u' :: g1 :: g2 :: g3 :: g4 :: rest3) with
          | some (cs, r) => some (Char.ofNat 0xFFFD :: cs, r)
          | none => none
      else
        match parseStringBody ('\\' :: 'u' :: g1 :: g2 :: g3 :: g4 :: rest3) with
        | some (cs, r) => some (Char.ofNat 0xFFFD :: cs, r)
        | none => none
    | _, _, _, _ => none
  | '\\' :: 'u' :: h1 :: h2 :: h3 :: h4 :: rest2 =>
    match hexVal h1, hexVal h2, hexVal h3, hexVal h4 with
    | some x1, some x2, some x3, some x4 =>
      if hex4 x1 x2 x3 x4 < 0xD800 ∨ 0xDFFF < hex4 x1 x2 x3 x4 then
        match parseStringBody rest2 with
        | some (cs, r) => some (Char.ofNat (hex4 x1 x2 x3 x4) :: cs, r)
        | none => none
      else
        match parseStringBody rest2 with
        | some (cs, r) => some (Char.ofNat 0xFFFD :: cs, r)
        | none => none
    | _, _, _, _ => none
  | '\\' :: e :: rest2 =>
    match unescapeChar e with
    | none => none
    | some d =>
      match parseStringBody rest2 with
      | none => none
      | some (cs, r) => some (d :: cs, r)
  | ['\\'] => none
  | c :: rest =>
    if c = '"' then some ([], rest)
    else if c.toNat < 0x20 then none
    else
      match parseStringBody rest with
      | none => none
      | some (cs, r) => some (c :: cs, r)


mutual

/-- Parse one JSON value.  The fuel argument bounds recursion depth; the
top-level entry point supplies more fuel than any parse can consume. -/
def parseVal : Nat → List Char → Option (Json × List Char)
  | 0, _ => none
  | fuel + 1, s =>
    match skipWs s with
    | [] => none
    | c :: rest =>
      if c = 'n' then
        match expectChars ('u' :: 'l' :: ['l']) rest with
        | some r => some (.null, r)
        | none => none
      else if c = 't' then
        match expectChars ('r' :: 'u' :: ['e']) rest with
        | some r => some (.bool true, r)
        | none => none
      else if c = 'f' then
        match expectChars ('a' :: 'l' :: 's' :: ['e']) rest with
        | some r => some (.bool false, r)
        | none => none
      else if c = '"' then
        match parseStringBody rest with
        | some (cs, r) => some (.str (String.mk cs), r)
        | none => none
      else if c = '[' then
        match skipWs rest with
        | [] => none
        | d :: r =>
          if d = ']' then some (.arr .nil, r)
          else
            match parseElems fuel (d :: r) with
            | some (xs, r') => some (.arr xs, r')
            | none => none
      else if c = '{' then
        match skipWs rest with
        | [] => none
        | d :: r =>
          if d = '}' then some (.obj .nil, r)
          else
            match parseFields fuel (d :: r) with
            | some (fs, r') => some (.obj fs, r')
            | none => none
      else parseNum (c :: rest)

/-- Parse the elements of a non-empty JSON array, including the closing
bracket. -/
def parseElems : Nat → List Char → Option (JArr × List Char)
  | 0, _ => none
  | fuel + 1, s =>
    match parseVal fuel s with
    | none => none
    | some (v, r) =>
      match skipWs r with
      | [] => none
      | d :: r' =>
        if d = ',' then
          match parseElems fuel r' with
          | some (xs, r'') => some (.cons v xs, r'')
          | none => none
        else if d = ']' then some (.cons v .nil, r')
        else none

/-- Parse the fields of a non-empty JSON object, including the closing
brace. -/
def parseFields : Nat → List Char → Option (JObj × List Char)
  | 0, _ => none
  | fuel + 1, s =>
    match skipWs s with
    | [] => none
    | c :: r =>
      if c = '"' then
        match parseStringBody r with
        | none => none
        | some (kcs, r1) =>
          match skipWs r1 with
          | [] => none
          | d :: r2 =>
            if d = ':' then
              match parseVal fuel r2 with
              | none => none
              | some (v, r3) =>
                match skipWs r3 with
                | [] => none
                | e :: r4 =>
                  if e = ',' then
                    match parseFields fuel r4 with
                    | some (fs, r5) => some (.cons (String.mk kcs) v fs, r5)
                    | none => none
                  else if e = '}' then some (.cons (String.mk kcs) v .nil, r4)
                  else none
            else none
      else none

end

/-- Characters that could extend a maximal number literal if they followed
it directly: digits, the decimal dot and the exponent markers. -/
def extendsNum (c : Char) : Bool :=
  Char.isDigit c || c = '.' || c = 'e' || c = 'E'

/-- Such characters may extend a number literal, so re-parsing a serialized
number is exact only when the following input does not begin with one; the
serializer never emits one right after a value (only `,`, `]`, `}` or the
end of the output). -/
def okAfterNum (j : Json) (rest : List Char) : Prop :=
  match j, rest with
  | .num _, c :: _ => extendsNum c = false
  | _, _ => True

/-- Model of `json.Unmarshal(data, &v)` for `v interface{}`: parse one JSON
value and require that only whitespace follows. -/
def parseTop (s : String) : Option Json :=
  match parseVal (s.data.length + 1) s.data with
  | some (j, rest) => if skipWs rest = [] then some j else none
  | none => none

/-- Model of `json.Unmarshal(data, &m)` for `m map[string]interface{}`:
the parse succeeds only when the value is a JSON object; the resulting
field list is returned in source order (duplicate keys are collapsed
last-wins when the field list is folded into a map). -/
def parseTopObj (s : String) : Option (List (String × Json)) :=
  match parseTop s with
  | some (.obj fs) => some fs.toList
  | _ => none

/-! ### Association-list maps (model of Go maps keyed by `string`) -/

/-- Look up a key (Go map indexing). -/
def findVal {α : Type} (k : String) : List (String × α) → Option α
  | [] => none
  | (k', v) :: t => if k' = k then some v else findVal k t

/-- Go map assignment `m[k] = v`: replace an existing entry or append. -/
def insertGo {α : Type} : List (String × α) → String → α → List (String × α)
  | [], k, v => [(k, v)]
  | (k', v') :: t, k, v => if k' = k then (k', v) :: t else (k', v') :: insertGo t k v

/-- Map a function over the values of an association list. -/
def mapVals {α β : Type} (g : α → β) (m : List (String × α)) : List (String × β) :=
  m.map (fun kv => (kv.1, g kv.2))

/-- The key list of an association list. -/
def keysOf {α : Type} (m : List (String × α)) : List String :=
  m.map Prod.fst

/-- Strict lexicographic order on character lists (the order in which
`json.Marshal` emits the keys of a Go map, byte-wise comparison of UTF-8
strings being codepoint-wise comparison). -/
def charsLt : List Char → List Char → Bool
  | x :: xs, y :: ys =>
    if x.toNat < y.toNat then true
    else if y.toNat < x.toNat then false
    else charsLt xs ys
  | _ :: _, [] => false
  | [], [] => false
  | [], _ :: _ => true

/-- Strict lexicographic order on strings. -/
def strLt (a b : String) : Bool := charsLt a.data b.data

/-- Insert into a key-sorted association list. -/
def insertSorted : (String × Json) → List (String × Json) → List (String × Json)
  | p, [] => [p]
  | p, q :: t => if strLt p.1 q.1 then p :: q :: t else q :: insertSorted p t

/-- Sort an association list by key (as `json.Marshal` does for Go maps). -/
def sortByKey : List (String × Json) → List (String × Json)
  | [] => []
  | p :: t => insertSorted p (sortByKey t)

/-! ### Go values, trigger events and marshalling -/

/-- Model of a Go `interface{}` detail payload: either a value with JSON
representation `j` (a `nil` detail is `fromJson .null`, since
`json.Marshal(nil)` yields `null`), or a value such as a channel or a
function whose JSON serialization fails. -/
inductive GoValue where
  | fromJson (j : Json) : GoValue
  | unserializable : GoValue
deriving DecidableEq

/-- The `nil` detail. -/
def goNull : GoValue := .fromJson .null

/-- The JSON representation of a serializable Go value (`.null` as a dummy
for the unserializable case, which `seqMap` rejects anyway). -/
def GoValue.toJson : GoValue → Json
  | .fromJson j => j
  | .unserializable => .null

/-- A Go value that serializes to a well-formed JSON value. -/
def detailWf : GoValue → Bool
  | .fromJson j => j.wf
  | .unserializable => false

/-- Model of `json.Marshal` on a single `interface{}` value. -/
def marshalGoValue : GoValue → Option Json
  | .fromJson j => some j
  | .unserializable => none

/-- Model of `TriggerEvent` from `types.go`: an event name and its detail payload
(`Detail` is `interface{}` in the source, modelled by `GoValue`). -/
structure TriggerEvent where
  Name : String
  Detail : GoValue
deriving DecidableEq

/-- Model of `NewTriggerEvent` from `types.go`. -/
def NewTriggerEvent (name : String) (detail : GoValue) : TriggerEvent :=
  { Name := name, Detail := detail }

/-- Serialize every value of an event map, failing if any single value has
no JSON representation (as `json.Marshal` does for `map[string]interface{}`). -/
def seqMap : List (String × GoValue) → Option (List (String × Json))
  | [] => some []
  | (k, v) :: t =>
    match marshalGoValue v, seqMap t with
    | some j, some l => some ((k, j) :: l)
    | _, _ => none

/-- Model of `json.Marshal(triggerEvents)` for
`triggerEvents map[string]interface{}`: serialize each value and render the
object with keys in sorted order. -/
def marshalMap (m : List (String × GoValue)) : Option String :=
  match seqMap m with
  | none => none
  | some l => some (Json.render (.obj (JObj.ofList (sortByKey l))))

/-! ### The header sink and the decorator chain (`main.go`) -/

/-- The header sink: a mapping from header name to raw header value
(`http.Header` restricted to the single-value `Get`/`Set` interface the
library uses). -/
abbrev Headers := List (String × String)

/-- Model of `w.Header().Get(key)`: the stored value, or `""` when absent. -/
def headerGet (w : Headers) (key : String) : String :=
  match findVal key w with
  | some v => v
  | none => ""

/-- Model of `w.Header().Set(key, value)`. -/
def headerSet (w : Headers) (key value : String) : Headers :=
  insertGo w key value

/-- Errors surfaced by decorators: the JSON marshalling error from the
trigger merge, or an arbitrary error from a user-supplied decorator. -/
inductive HxError where
  | marshalError : HxError
  | custom (code : Nat) : HxError
deriving DecidableEq

/-- Model of `HeaderDecorator` from `main.go`: a decorator reads and writes the
header sink and may fail.  The returned sink reflects all writes made
before the failure. -/
abbrev HeaderDecorator := Headers → Headers × Option HxError

/-- Model of `SetHeaders` from `main.go`: apply each decorator in order, stopping at
the first error. -/
def SetHeaders (w : Headers) : List HeaderDecorator → Headers × Option HxError
  | [] => (w, none)
  | fn :: fns =>
    match fn w with
    | (w', none) => SetHeaders w' fns
    | (w', some e) => (w', some e)

/-- Model of `SetHeader` from `main.go`. -/
def SetHeader (key value : String) : HeaderDecorator :=
  fun w => (headerSet w key value, none)

/-- Header name constants from `types.go` (the three trigger headers the
merge engine targets). -/
def HeaderTrigger : String := "HX-Trigger"

def HeaderTriggerAfterSettle : String := "HX-Trigger-After-Settle"

def HeaderTriggerAfterSwap : String := "HX-Trigger-After-Swap"

/-! ### The trigger merge engine (`main.go`) -/

/-- Result of `json.Unmarshal(data, &m)` for `m map[string]interface{}`:
an error, success on JSON `null` (which sets the map to `nil`), or success
on a JSON object, whose fields are listed here in source order. -/
inductive MapUnmarshal where
  | failed : MapUnmarshal
  | nullMap : MapUnmarshal
  | objMap (fields : List (String × Json)) : MapUnmarshal
deriving DecidableEq

/-- Model of `json.Unmarshal([]byte(s), &triggerEvents)` from
`triggerWithDetail`: decoding succeeds exactly on valid JSON objects and on
JSON `null`. -/
def unmarshalMap (s : String) : MapUnmarshal :=
  match parseTop s with
  | some (.obj fs) => .objMap fs.toList
  | some .null => .nullMap
  | _ => .failed

/-- The event map `triggerWithDetail` holds after its unmarshalling step,
with `none` standing for Go's `nil` map: `make` starts the map empty; a
non-empty prior that unmarshals as a JSON object replaces it with the
object's entries (duplicate keys collapsing last-wins); a prior of JSON
`null` sets the map to `nil`; any other non-empty prior is split on commas
into whitespace-trimmed names each mapped to a `nil` detail. -/
def baseEvents (current : String) : Option (List (String × GoValue)) :=
  if current = "" then some []
  else
    match unmarshalMap current with
    | .objMap fields =>
      some (fields.foldl (fun acc kv => insertGo acc kv.1 (GoValue.fromJson kv.2)) [])
    | .nullMap => none
    | .failed =>
      some ((splitComma current).foldl (fun acc ev => insertGo acc (trimS ev) goNull) [])

/-- The merged event map: the base map overlaid with the new events
(`triggerEvents[event.Name] = event.Detail`, names used verbatim, last
write wins). -/
def mergedEvents (events : List TriggerEvent) (base : List (String × GoValue)) :
    List (String × GoValue) :=
  events.foldl (fun acc e => insertGo acc e.Name e.Detail) base

/-- Model of `triggerWithDetail` from `main.go`.  A `none` result models the Go
panic on assigning into the `nil` map left by unmarshalling a prior of
JSON `null`; with no events to assign, `json.Marshal` of that `nil` map
writes `null`.  Otherwise the merged map is marshalled and stored; a
marshalling error is returned with the header sink untouched. -/
def triggerWithDetail (header : String) (events : List TriggerEvent) (w : Headers) :
    Option (Headers × Option HxError) :=
  match baseEvents (headerGet w header) with
  | none =>
    match events with
    | [] => some (headerSet w header "null", none)
    | _ :: _ => none
  | some base =>
    match marshalMap (mergedEvents events base) with
    | none => some (w, some .marshalError)
    | some out => some (headerSet w header out, none)

/-- Model of `trigger` from `main.go` (a `none` result propagates the panic from
`triggerWithDetail`): when the current header value parses as JSON,
delegate to `triggerWithDetail` with `nil` details; otherwise extend the
comma-separated list (current pieces trimmed, and the new names trimmed at
main.go line 201) and store the `", "`-join. -/
def trigger (header : String) (eventNames : List String) (w : Headers) :
    Option (Headers × Option HxError) :=
  let current := headerGet w header
  if current = "" then
    some (headerSet w header (joinCS (eventNames.map trimS)), none)
  else
    match parseTop current with
    | some _ =>
      triggerWithDetail header (eventNames.map (fun n => { Name := n, Detail := goNull })) w
    | none =>
      some (headerSet w header
        (joinCS ((splitComma current).map trimS ++ eventNames.map trimS)), none)

/-- Model of `Trigger` from `main.go`. -/
def Trigger (eventNames : List String) : Headers → Option (Headers × Option HxError) :=
  trigger HeaderTrigger eventNames

/-- Model of `TriggerAfterSwap` from `main.go`. -/
def TriggerAfterSwap (eventNames : List String) : Headers → Option (Headers × Option HxError) :=
  trigger HeaderTriggerAfterSwap eventNames

/-- Model of `TriggerAfterSettle` from `main.go`. -/
def TriggerAfterSettle (eventNames : List String) :
    Headers → Option (Headers × Option HxError) :=
  trigger HeaderTriggerAfterSettle eventNames

/-- Model of `TriggerWithDetail` from `main.go`. -/
def TriggerWithDetail (events : List TriggerEvent) :
    Headers → Option (Headers × Option HxError) :=
  triggerWithDetail HeaderTrigger events

/-- Model of `TriggerAfterSettleWithDetail` from `main.go`. -/
def TriggerAfterSettleWithDetail (events : List TriggerEvent) :
    Headers → Option (Headers × Option HxError) :=
  triggerWithDetail HeaderTriggerAfterSettle events

/-- Model of `TriggerAfterSwapWithDetail` from `main.go`. -/
def TriggerAfterSwapWithDetail (events : List TriggerEvent) :
    Headers → Option (Headers × Option HxError) :=
  triggerWithDetail HeaderTriggerAfterSwap events

/-- The detail of the last event in the list carrying the given name
(exact, case-sensitive match) — the value that last-write-wins insertion
leaves in the event map for that name. -/
def lastDetail (k : String) : List TriggerEvent → Option GoValue
  | [] => none
  | e :: t =>
    match lastDetail k t with
    | some d => some d
    | none => if e.Name = k then some e.Detail else none

/-- Spec-side description of the list-prior merge (from the spec: "keys
equal `(trim-split(prior) ∪ new names)` and … value for old names is
`null` unless overwritten"): the value the merged mapping associates with
a key. -/
def specListMergeLookup (current : String) (events : List TriggerEvent)
    (k : String) : Option Json :=
  match lastDetail k events with
  | some d => marshalGoValue d
  | none => if k ∈ (splitComma current).map trimS then some Json.null else none

/-- The header sink after applying a list of decorators in order,
ignoring errors (used to phrase "headers set by earlier decorators"). -/
def applyAll (w : Headers) (fns : List HeaderDecorator) : Headers :=
  fns.foldl (fun w' fn => (fn w').1) w

/-! ### The `Swap` enumeration and its codec (`types.go`) -/

/-- Model of `Swap` from `types.go` (the 8 enumerated swap strategies; the Go type
is an `int`, but only these 8 named values exist as constants). -/
inductive Swap where
  | SwapInnerHTML : Swap
  | SwapOuterHTML : Swap
  | SwapBeforeBegin : Swap
  | SwapAfterBegin : Swap
  | SwapBeforeEnd : Swap
  | SwapAfterEnd : Swap
  | SwapDelete : Swap
  | SwapNone : Swap
deriving DecidableEq

/-- Model of `Swap.String` from `types.go`; the `default` branch of the Go switch
returns `"innerHTML"`, which on the 8 enumerated values applies exactly to
`SwapInnerHTML`. -/
def Swap.toString : Swap → String
  | .SwapOuterHTML => "outerHTML"
  | .SwapBeforeBegin => "beforebegin"
  | .SwapAfterBegin => "afterbegin"
  | .SwapBeforeEnd => "beforeend"
  | .SwapAfterEnd => "afterend"
  | .SwapDelete => "delete"
  | .SwapNone => "none"
  | .SwapInnerHTML => "innerHTML"

/-- Model of `SwapFromString` from `types.go`; the error (`fmt.Errorf("invalid Swap
value: %q", s)`) is modelled as `some` message carrying the offending
string. -/
def SwapFromString (s : String) : Swap × Option String :=
  if s = "innerHTML" then (.SwapInnerHTML, none)
  else if s = "outerHTML" then (.SwapOuterHTML, none)
  else if s = "beforebegin" then (.SwapBeforeBegin, none)
  else if s = "afterbegin" then (.SwapAfterBegin, none)
  else if s = "beforeend" then (.SwapBeforeEnd, none)
  else if s = "afterend" then (.SwapAfterEnd, none)
  else if s = "delete" then (.SwapDelete, none)
  else if s = "none" then (.SwapNone, none)
  else (.SwapInnerHTML, some ("invalid Swap value: " ++ s))

/-- Model of `StringToSwap` from `types.go`. -/
def StringToSwap (s : String) : Swap × Option String :=
  SwapFromString s

/-! ### The request-header middleware (`middleware/middleware.go`) -/

def headerBoosted : String := "HX-Boosted"

def headerRequest : String := "HX-Request"

def headerCurrentURL : String := "HX-Current-URL"

def headerHistoryRestoreRequest : String := "HX-History-Restore-Request"

def headerTarget : String := "HX-Target"

def headerTrigger : String := "HX-Trigger"

def headerTriggerName : String := "HX-Trigger-Name"

/-- Model of `HTMXRequest` from `middleware/middleware.go`. -/
structure HTMXRequest where
  CurrentURL : String
  IsBoosted : Bool
  IsHistoryRestoreRequest : Bool
  IsHTMXRequest : Bool
  Target : String
  Trigger : String
  TriggerName : String
deriving DecidableEq

/-- The zero value of `HTMXRequest`. -/
def emptyHTMXRequest : HTMXRequest :=
  { CurrentURL := "", IsBoosted := false, IsHistoryRestoreRequest := false
    IsHTMXRequest := false, Target := "", Trigger := "", TriggerName := "" }

/-- Model of `HTMXRequestKey` from `middleware/middleware.go`. -/
def HTMXRequestKey : String := "HTMXRequest"

/-- The request context, restricted to values of type `HTMXRequest` (the
only type the middleware stores; `GetRequestHeaders` type-asserts to it). -/
abbrev Context := List (String × HTMXRequest)

/-- The record the `WithHTMX` middleware builds from the request headers. -/
def htmxRequestOfHeaders (h : Headers) : HTMXRequest :=
  { CurrentURL := headerGet h headerCurrentURL
    IsBoosted := headerGet h headerBoosted == "true"
    IsHistoryRestoreRequest := headerGet h headerHistoryRestoreRequest == "true"
    IsHTMXRequest := headerGet h headerRequest == "true"
    Target := headerGet h headerTarget
    Trigger := headerGet h headerTrigger
    TriggerName := headerGet h headerTriggerName }

/-- Model of `WithHTMX` from `middleware/middleware.go`: the context the wrapped
handler runs with — the incoming context extended with the extracted
record under `HTMXRequestKey` (`context.WithValue` shadows any previous
binding). -/
def WithHTMX (reqHeaders : Headers) (ctx : Context) : Context :=
  (HTMXRequestKey, htmxRequestOfHeaders reqHeaders) :: ctx

/-- Model of `GetRequestHeaders` from `middleware/middleware.go`. -/
def GetRequestHeaders (ctx : Context) : HTMXRequest × Bool :=
  match findVal HTMXRequestKey ctx with
  | some h => (h, true)
  | none => (emptyHTMXRequest, false)


/-! ### Lemmas: association-list maps -/

theorem findVal_insertGo {α : Type} (m : List (String × α)) (k k' : String) (v : α) :
    findVal k (insertGo m k' v) = if k' = k then some v else findVal k m := by
  induction m with
  | nil => simp [insertGo, findVal]
  | cons p t ih =>
    obtain ⟨a, b⟩ := p
    by_cases h1 : a = k'
    · subst h1
      by_cases h2 : a = k <;> simp [insertGo, findVal, h2]
    · by_cases h2 : a = k
      · subst h2
        have hk : ¬ k' = a := fun h => h1 h.symm
        simp [insertGo, findVal, h1, hk]
      · simp [insertGo, findVal, h1, h2, ih]

theorem keysOf_insertGo {α : Type} (m : List (String × α)) (k : String) (v : α) :
    keysOf (insertGo m k v) = if k ∈ keysOf m then keysOf m else keysOf m ++ [k] := by
  induction m with
  | nil => simp [insertGo, keysOf]
  | cons p t ih =>
    obtain ⟨a, b⟩ := p
    by_cases h1 : a = k
    · subst h1
      simp [insertGo, keysOf]
    · have hne : k ≠ a := fun h => h1 h.symm
      simp only [insertGo, if_neg h1, keysOf, List.map_cons, List.mem_cons]
      simp only [keysOf] at ih
      rw [ih]
      by_cases h2 : k ∈ List.map Prod.fst t
      · simp [h2, hne]
      · simp [h2, hne]

theorem nodup_keys_insertGo {α : Type} (m : List (String × α)) (k : String) (v : α)
    (h : (keysOf m).Nodup) : (keysOf (insertGo m k v)).Nodup := by
  rw [keysOf_insertGo]
  by_cases hm : k ∈ keysOf m
  · simpa [hm]
  · simpa [hm, List.nodup_append] using h

theorem findVal_foldl_insertEvents (events : List TriggerEvent) :
    ∀ (base : List (String × GoValue)) (k : String),
      findVal k (events.foldl (fun acc e => insertGo acc e.Name e.Detail) base)
        = match lastDetail k events with
          | some d => some d
          | none => findVal k base := by
  induction events with
  | nil => intro base k; simp [lastDetail]
  | cons e t ih =>
    intro base k
    simp only [List.foldl_cons, lastDetail]
    rw [ih]
    cases hlt : lastDetail k t with
    | some d => simp
    | none =>
      simp only [findVal_insertGo]
      by_cases h : e.Name = k <;> simp [h]

theorem nodup_keys_foldl {α β : Type} (kf : β → String) (vf : β → α) (l : List β) :
    ∀ (base : List (String × α)), (keysOf base).Nodup →
      (keysOf (l.foldl (fun acc x => insertGo acc (kf x) (vf x)) base)).Nodup := by
  induction l with
  | nil => intro base h; simpa
  | cons x t ih =>
    intro base h
    exact ih _ (nodup_keys_insertGo _ _ _ h)

theorem findVal_foldl_const {α : Type} (ps : List String) (f : String → String) (v : α) :
    ∀ (base : List (String × α)) (k : String),
      findVal k (ps.foldl (fun acc p => insertGo acc (f p) v) base)
        = if k ∈ ps.map f then some v else findVal k base := by
  induction ps with
  | nil => intro base k; simp
  | cons p t ih =>
    intro base k
    simp only [List.foldl_cons, List.map_cons, List.mem_cons]
    rw [ih, findVal_insertGo]
    by_cases h1 : k ∈ t.map f
    · simp [h1]
    · by_cases h2 : f p = k
      · subst h2
        simp [h1]
      · have h2' : ¬ k = f p := fun h => h2 h.symm
        simp [h1, h2, h2']

theorem findVal_mapVals {α β : Type} (g : α → β) (m : List (String × α)) (k : String) :
    findVal k (mapVals g m) = (findVal k m).map g := by
  induction m with
  | nil => simp [mapVals, findVal]
  | cons p t ih =>
    obtain ⟨a, b⟩ := p
    by_cases h : a = k <;> simp [mapVals, findVal, h] <;> simpa [mapVals] using ih

theorem keysOf_mapVals {α β : Type} (g : α → β) (m : List (String × α)) :
    keysOf (mapVals g m) = keysOf m := by
  simp [keysOf, mapVals]

theorem mem_insertGo {α : Type} (m : List (String × α)) (k : String) (v : α) :
    ∀ p, p ∈ insertGo m k v → p ∈ m ∨ p = (k, v) := by
  induction m with
  | nil => intro p hp; simp [insertGo] at hp; right; exact hp
  | cons q t ih =>
    obtain ⟨a, b⟩ := q
    intro p hp
    by_cases h : a = k
    · subst h
      simp only [insertGo, if_pos rfl] at hp
      rcases List.mem_cons.mp hp with h1 | h1
      · right; rw [h1]
      · left; exact List.mem_cons_of_mem _ h1
    · simp only [insertGo, if_neg h] at hp
      rcases List.mem_cons.mp hp with h1 | h1
      · left; rw [h1]; exact List.mem_cons_self _ _
      · rcases ih p h1 with h2 | h2
        · left; exact List.mem_cons_of_mem _ h2
        · right; exact h2

theorem detailWf_foldl (events : List TriggerEvent) :
    ∀ (base : List (String × GoValue)),
      (∀ p ∈ base, detailWf p.2 = true) →
      (∀ e ∈ events, detailWf e.Detail = true) →
      ∀ p ∈ events.foldl (fun acc e => insertGo acc e.Name e.Detail) base, detailWf p.2 = true := by
  induction events with
  | nil => intro base hb _ p hp; exact hb p hp
  | cons e t ih =>
    intro base hb he p hp
    refine ih _ ?_ (fun x hx => he x (List.mem_cons_of_mem _ hx)) p hp
    intro q hq
    rcases mem_insertGo _ _ _ q hq with h1 | h1
    · exact hb q h1
    · rw [h1]; exact he e (List.mem_cons_self _ _)

/-! ### Lemmas: serialization of event maps -/

theorem seqMap_eq_of_detailWf (m : List (String × GoValue))
    (h : ∀ kv ∈ m, detailWf kv.2 = true) :
    seqMap m = some (mapVals GoValue.toJson m) := by
  induction m with
  | nil => simp [seqMap, mapVals]
  | cons p t ih =>
    obtain ⟨k, v⟩ := p
    have hv : detailWf v = true := h (k, v) (List.mem_cons_self _ _)
    have ht : seqMap t = some (mapVals GoValue.toJson t) :=
      ih (fun kv hkv => h kv (List.mem_cons_of_mem _ hkv))
    cases v with
    | fromJson j => simp [seqMap, marshalGoValue, ht, mapVals, GoValue.toJson]
    | unserializable => simp [detailWf] at hv

theorem wf_mapVals_toJson (m : List (String × GoValue))
    (h : ∀ kv ∈ m, detailWf kv.2 = true) :
    ∀ kv ∈ mapVals GoValue.toJson m, Json.wf kv.2 = true := by
  intro kv hkv
  simp only [mapVals, List.mem_map] at hkv
  obtain ⟨⟨a, b⟩, hab, rfl⟩ := hkv
  have := h (a, b) hab
  cases b with
  | fromJson j => simpa [detailWf, GoValue.toJson] using this
  | unserializable => simp [detailWf] at this


/-! ### Lemmas: sorting and lookups up to permutation -/

theorem insertSorted_perm (p : String × Json) (l : List (String × Json)) :
    List.Perm (insertSorted p l) (p :: l) := by
  induction l with
  | nil => simp [insertSorted]
  | cons q t ih =>
    by_cases h : strLt p.1 q.1
    · simp [insertSorted, h]
    · simp only [insertSorted, if_neg h]
      exact (ih.cons q).trans (List.Perm.swap p q t)

theorem sortByKey_perm (l : List (String × Json)) :
    List.Perm (sortByKey l) l := by
  induction l with
  | nil => simp [sortByKey]
  | cons p t ih =>
    exact (insertSorted_perm p (sortByKey t)).trans (ih.cons p)

theorem findVal_some_mem {α : Type} (l : List (String × α)) (k : String) (v : α)
    (h : findVal k l = some v) : (k, v) ∈ l := by
  induction l with
  | nil => simp [findVal] at h
  | cons p t ih =>
    obtain ⟨a, b⟩ := p
    by_cases ha : a = k
    · subst ha
      simp [findVal] at h
      subst h
      exact List.mem_cons_self _ _
    · simp only [findVal, if_neg ha] at h
      exact List.mem_cons_of_mem _ (ih h)

theorem findVal_eq_none_iff {α : Type} (l : List (String × α)) (k : String) :
    findVal k l = none ↔ k ∉ keysOf l := by
  induction l with
  | nil => simp [findVal, keysOf]
  | cons p t ih =>
    obtain ⟨a, b⟩ := p
    by_cases ha : a = k
    · subst ha
      simp [findVal, keysOf]
    · have ha' : ¬ k = a := fun h => ha h.symm
      simp [findVal, keysOf, ha, ha'] at ih ⊢
      exact ih

theorem mem_findVal_of_nodup {α : Type} (l : List (String × α)) (k : String) (v : α)
    (nd : (keysOf l).Nodup) (h : (k, v) ∈ l) : findVal k l = some v := by
  induction l with
  | nil => simp at h
  | cons p t ih =>
    obtain ⟨a, b⟩ := p
    simp only [keysOf, List.map_cons, List.nodup_cons] at nd
    rcases List.mem_cons.mp h with h1 | h1
    · injection h1 with h2 h3
      subst h2
      subst h3
      simp [findVal]
    · by_cases ha : a = k
      · subst ha
        exact absurd (List.mem_map_of_mem Prod.fst h1) nd.1
      · simp only [findVal, if_neg ha]
        exact ih nd.2 h1

theorem findVal_perm {α : Type} {l l' : List (String × α)} (h : List.Perm l l')
    (nd : (keysOf l).Nodup) (k : String) : findVal k l = findVal k l' := by
  have nd' : (keysOf l').Nodup := ((h.map Prod.fst).nodup_iff).mp nd
  cases hc : findVal k l with
  | none =>
    have hk : k ∉ keysOf l := (findVal_eq_none_iff l k).mp hc
    have hk' : k ∉ keysOf l' := fun hm => hk (((h.map Prod.fst).mem_iff).mpr hm)
    exact ((findVal_eq_none_iff l' k).mpr hk').symm
  | some v =>
    have hm : (k, v) ∈ l' := (h.mem_iff).mp (findVal_some_mem l k v hc)
    exact (mem_findVal_of_nodup l' k v nd' hm).symm

/-! ### Lemmas: JObj conversions -/

theorem toList_ofList (l : List (String × Json)) : (JObj.ofList l).toList = l := by
  induction l with
  | nil => simp [JObj.ofList, JObj.toList]
  | cons p t ih =>
    obtain ⟨k, v⟩ := p
    simp [JObj.ofList, JObj.toList, ih]

theorem wf_ofList (l : List (String × Json)) (h : ∀ kv ∈ l, Json.wf kv.2 = true) :
    JObj.wf (JObj.ofList l) = true := by
  induction l with
  | nil => simp [JObj.ofList, JObj.wf]
  | cons p t ih =>
    obtain ⟨k, v⟩ := p
    simp only [JObj.ofList, JObj.wf, Bool.and_eq_true]
    exact ⟨h (k, v) (List.mem_cons_self _ _),
      ih (fun kv hkv => h kv (List.mem_cons_of_mem _ hkv))⟩

/-! ### Lemmas: parser building blocks -/

theorem string_mk_data (s : String) : String.mk s.data = s := rfl

theorem skipWs_cons (c : Char) (l : List Char) (h : isSpaceChar c = false) :
    skipWs (c :: l) = c :: l := by
  simp [skipWs, List.dropWhile_cons, h]

theorem digit_facts (c : Char) (h : Char.isDigit c = true) :
    isSpaceChar c = false ∧ c ≠ ':' ∧ c ≠ ']' ∧ c ≠ ',' ∧ c ≠ '}' ∧ c ≠ '-' ∧
      c ≠ '"' ∧ c ≠ 'n' ∧ c ≠ '[' ∧ c ≠ 't' ∧ c ≠ '{' ∧ c ≠ 'f' := by
  have hsp : isSpaceChar c = false := by
    rcases hb : isSpaceChar c
    · rfl
    · exfalso
      simp only [isSpaceChar, Bool.or_eq_true, decide_eq_true_eq] at hb
      rcases hb with ((rfl | rfl) | rfl) | rfl <;> exact absurd h (by decide)
  refine ⟨hsp, ?_, ?_, ?_, ?_, ?_, ?_, ?_, ?_, ?_, ?_, ?_⟩ <;>
    rintro rfl <;> exact absurd h (by decide)

theorem okAfterNum_cons (j : Json) (c : Char) (r : List Char) (h : extendsNum c = false) :
    okAfterNum j (c :: r) := by
  cases j <;> simp [okAfterNum, h]

theorem okAfterNum_nil (j : Json) : okAfterNum j [] := by
  cases j <;> simp [okAfterNum]

theorem takeWhile_append_all {α : Type} (p : α → Bool) (ds rest : List α)
    (h : ds.all p = true) : (ds ++ rest).takeWhile p = ds ++ rest.takeWhile p := by
  induction ds with
  | nil => simp
  | cons d t ih =>
    simp only [List.all_cons, Bool.and_eq_true] at h
    simp [List.takeWhile_cons, h.1, ih h.2]

theorem dropWhile_append_all {α : Type} (p : α → Bool) (ds rest : List α)
    (h : ds.all p = true) : (ds ++ rest).dropWhile p = rest.dropWhile p := by
  induction ds with
  | nil => simp
  | cons d t ih =>
    simp only [List.all_cons, Bool.and_eq_true] at h
    simp [List.dropWhile_cons, h.1, ih h.2]

theorem takeWhile_all {α : Type} (p : α → Bool) (l : List α) :
    (l.takeWhile p).all p = true := by
  induction l with
  | nil => simp
  | cons c t ih =>
    by_cases hc : p c <;> simp [List.takeWhile_cons, hc, ih]

theorem takeWhile_stop (t : List Char)
    (ht : ∀ d u, t = d :: u → Char.isDigit d = false) :
    t.takeWhile Char.isDigit = [] ∧ t.dropWhile Char.isDigit = t := by
  cases t with
  | nil => exact ⟨rfl, rfl⟩
  | cons d u =>
    rw [List.takeWhile_cons, List.dropWhile_cons, ht d u rfl]
    exact ⟨rfl, rfl⟩

theorem scanIntPart_shape (s ip r : List Char) (h : scanIntPart s = some (ip, r)) :
    s = ip ++ r ∧
      (ip = ['0'] ∨
        ∃ c ds, ip = c :: ds ∧ c ≠ '0' ∧ Char.isDigit c = true ∧ ds.all Char.isDigit = true) := by
  cases s with
  | nil => simp [scanIntPart] at h
  | cons c r0 =>
    rw [scanIntPart] at h
    by_cases h0 : c = '0'
    · subst h0
      rw [if_pos rfl] at h
      simp only [Option.some.injEq, Prod.mk.injEq] at h
      obtain ⟨hip, hr⟩ := h
      subst hip
      subst hr
      exact ⟨rfl, Or.inl rfl⟩
    · rw [if_neg h0] at h
      by_cases hd : Char.isDigit c = true
      · simp only [hd, if_true, Option.some.injEq, Prod.mk.injEq] at h
        obtain ⟨hip, hr⟩ := h
        subst hip
        subst hr
        refine ⟨?_, Or.inr ⟨c, _, rfl, h0, hd, takeWhile_all _ _⟩⟩
        rw [List.cons_append, List.takeWhile_append_dropWhile]
      · simp only [hd] at h
        simp at h

theorem scanIntPart_exact (ip t : List Char)
    (hs : ip = ['0'] ∨
      ∃ c ds, ip = c :: ds ∧ c ≠ '0' ∧ Char.isDigit c = true ∧ ds.all Char.isDigit = true)
    (ht : ∀ d u, t = d :: u → Char.isDigit d = false) :
    scanIntPart (ip ++ t) = some (ip, t) := by
  obtain ⟨ht1, ht2⟩ := takeWhile_stop t ht
  rcases hs with rfl | ⟨c, ds, rfl, h0, hd, hall⟩
  · rw [List.cons_append, List.nil_append, scanIntPart, if_pos rfl]
  · rw [List.cons_append, scanIntPart, if_neg h0]
    simp only [hd, if_true]
    rw [takeWhile_append_all Char.isDigit ds t hall, dropWhile_append_all Char.isDigit ds t hall,
      ht1, ht2, List.append_nil]

theorem scanFracPart_shape (s fp r : List Char) (h : scanFracPart s = (fp, r)) :
    s = fp ++ r ∧
      (fp = [] ∨ ∃ ds, fp = '.' :: ds ∧ ds ≠ [] ∧ ds.all Char.isDigit = true) := by
  cases s with
  | nil =>
    rw [scanFracPart] at h
    simp only [Prod.mk.injEq] at h
    obtain ⟨hfp, hr⟩ := h
    subst hfp
    subst hr
    exact ⟨rfl, Or.inl rfl⟩
  | cons c r0 =>
    rw [scanFracPart] at h
    by_cases hc : c = '.'
    · subst hc
      rw [if_pos rfl] at h
      cases htw : r0.takeWhile Char.isDigit with
      | nil =>
        rw [htw] at h
        simp only [Prod.mk.injEq] at h
        obtain ⟨hfp, hr⟩ := h
        subst hfp
        subst hr
        exact ⟨rfl, Or.inl rfl⟩
      | cons d ds =>
        rw [htw] at h
        simp only [Prod.mk.injEq] at h
        obtain ⟨hfp, hr⟩ := h
        subst hfp
        subst hr
        have hall := takeWhile_all Char.isDigit r0
        rw [htw] at hall
        refine ⟨?_, Or.inr ⟨d :: ds, rfl, by simp, hall⟩⟩
        have hsp := List.takeWhile_append_dropWhile (p := Char.isDigit) (l := r0)
        rw [htw] at hsp
        simp only [List.cons_append]
        exact congrArg (List.cons '.') hsp.symm
    · rw [if_neg hc] at h
      simp only [Prod.mk.injEq] at h
      obtain ⟨hfp, hr⟩ := h
      subst hfp
      subst hr
      exact ⟨rfl, Or.inl rfl⟩

theorem scanFracPart_exact_nil (t : List Char) (ht : ∀ d u, t = d :: u → d ≠ '.') :
    scanFracPart t = ([], t) := by
  cases t with
  | nil => rfl
  | cons d u => rw [scanFracPart, if_neg (ht d u rfl)]

theorem scanFracPart_exact_cons (ds t : List Char) (hne : ds ≠ [])
    (hall : ds.all Char.isDigit = true) (ht : ∀ d u, t = d :: u → Char.isDigit d = false) :
    scanFracPart (('.' :: ds) ++ t) = ('.' :: ds, t) := by
  obtain ⟨ht1, ht2⟩ := takeWhile_stop t ht
  rw [List.cons_append, scanFracPart, if_pos rfl]
  rw [takeWhile_append_all Char.isDigit ds t hall, dropWhile_append_all Char.isDigit ds t hall,
    ht1, ht2, List.append_nil]
  cases ds with
  | nil => exact absurd rfl hne
  | cons d ds2 => rfl

theorem scanExpPart_shape (s ep r : List Char) (h : scanExpPart s = (ep, r)) :
    s = ep ++ r ∧
      (ep = [] ∨ ∃ e rest1, ep = e :: rest1 ∧ (e = 'e' ∨ e = 'E') ∧
        ((∃ sgn xs, rest1 = sgn :: xs ∧ (sgn = '+' ∨ sgn = '-') ∧ xs ≠ [] ∧
            xs.all Char.isDigit = true) ∨
          (rest1 ≠ [] ∧ rest1.all Char.isDigit = true ∧
            ∀ x u, rest1 = x :: u → Char.isDigit x = true))) := by
  cases s with
  | nil =>
    rw [scanExpPart.eq_def] at h
    simp only [Prod.mk.injEq] at h
    obtain ⟨hfp, hr⟩ := h
    subst hfp
    subst hr
    exact ⟨rfl, Or.inl rfl⟩
  | cons c r0 =>
    rw [scanExpPart.eq_def] at h
    simp only [] at h
    by_cases hc : c = 'e' ∨ c = 'E'
    · rw [if_pos hc] at h
      cases r0 with
      | nil =>
        simp only [Prod.mk.injEq] at h
        obtain ⟨hfp, hr⟩ := h
        subst hfp
        subst hr
        exact ⟨rfl, Or.inl rfl⟩
      | cons d r2 =>
        simp only [] at h
        by_cases hdpm : d = '+' ∨ d = '-'
        · rw [if_pos hdpm] at h
          cases htw : r2.takeWhile Char.isDigit with
          | nil =>
            rw [htw] at h
            simp only [Prod.mk.injEq] at h
            obtain ⟨hfp, hr⟩ := h
            subst hfp
            subst hr
            exact ⟨rfl, Or.inl rfl⟩
          | cons x xs =>
            rw [htw] at h
            simp only [Prod.mk.injEq] at h
            obtain ⟨hfp, hr⟩ := h
            subst hfp
            subst hr
            have hall := takeWhile_all Char.isDigit r2
            rw [htw] at hall
            have hsplit := List.takeWhile_append_dropWhile (p := Char.isDigit) (l := r2)
            rw [htw] at hsplit
            refine ⟨?_, Or.inr ⟨c, d :: x :: xs, rfl, hc, Or.inl ⟨d, x :: xs, rfl, hdpm,
              by simp, hall⟩⟩⟩
            exact congrArg (fun l => c :: d :: l) hsplit.symm
        · rw [if_neg hdpm] at h
          cases htw : (d :: r2).takeWhile Char.isDigit with
          | nil =>
            rw [htw] at h
            simp only [Prod.mk.injEq] at h
            obtain ⟨hfp, hr⟩ := h
            subst hfp
            subst hr
            exact ⟨rfl, Or.inl rfl⟩
          | cons x xs =>
            rw [htw] at h
            simp only [Prod.mk.injEq] at h
            obtain ⟨hfp, hr⟩ := h
            subst hfp
            subst hr
            have hall := takeWhile_all Char.isDigit (d :: r2)
            rw [htw] at hall
            have hsplit := List.takeWhile_append_dropWhile (p := Char.isDigit) (l := d :: r2)
            rw [htw] at hsplit
            refine ⟨?_, Or.inr ⟨c, x :: xs, rfl, hc, Or.inr ⟨by simp, hall, ?_⟩⟩⟩
            · exact congrArg (List.cons c) hsplit.symm
            · intro x2 u hxu
              injection hxu with hx2 _
              subst hx2
              simp only [List.all_cons, Bool.and_eq_true] at hall
              exact hall.1
    · rw [if_neg hc] at h
      simp only [Prod.mk.injEq] at h
      obtain ⟨hfp, hr⟩ := h
      subst hfp
      subst hr
      exact ⟨rfl, Or.inl rfl⟩

theorem scanExpPart_exact_nil (t : List Char)
    (ht : ∀ d u, t = d :: u → d ≠ 'e' ∧ d ≠ 'E') :
    scanExpPart t = ([], t) := by
  cases t with
  | nil => rfl
  | cons d u =>
    rw [scanExpPart.eq_def]
    simp only []
    rw [if_neg ?_]
    obtain ⟨h1, h2⟩ := ht d u rfl
    rintro (rfl | rfl)
    · exact h1 rfl
    · exact h2 rfl

theorem scanExpPart_exact_sign (e sgn : Char) (xs t : List Char)
    (he : e = 'e' ∨ e = 'E') (hsgn : sgn = '+' ∨ sgn = '-') (hne : xs ≠ [])
    (hall : xs.all Char.isDigit = true)
    (ht : ∀ d u, t = d :: u → Char.isDigit d = false) :
    scanExpPart ((e :: sgn :: xs) ++ t) = (e :: sgn :: xs, t) := by
  obtain ⟨ht1, ht2⟩ := takeWhile_stop t ht
  simp only [List.cons_append]
  rw [scanExpPart.eq_def]
  simp only []
  rw [if_pos he, if_pos hsgn]
  rw [takeWhile_append_all Char.isDigit xs t hall, dropWhile_append_all Char.isDigit xs t hall,
    ht1, ht2, List.append_nil]
  cases xs with
  | nil => exact absurd rfl hne
  | cons x xs2 => rfl

theorem scanExpPart_exact_nosign (e : Char) (xs t : List Char)
    (he : e = 'e' ∨ e = 'E') (hne : xs ≠ [])
    (hall : xs.all Char.isDigit = true)
    (hx : ∀ x u, xs = x :: u → Char.isDigit x = true)
    (ht : ∀ d u, t = d :: u → Char.isDigit d = false) :
    scanExpPart ((e :: xs) ++ t) = (e :: xs, t) := by
  obtain ⟨ht1, ht2⟩ := takeWhile_stop t ht
  cases xs with
  | nil => exact absurd rfl hne
  | cons x xs2 =>
    have hxd : Char.isDigit x = true := hx x xs2 rfl
    have hpm : ¬ (x = '+' ∨ x = '-') := by
      rintro (rfl | rfl) <;> exact absurd hxd (by decide)
    simp only [List.cons_append]
    rw [scanExpPart.eq_def]
    simp only []
    rw [if_pos he, if_neg hpm]
    have hall2 : (x :: xs2).all Char.isDigit = true := hall
    rw [show x :: (xs2 ++ t) = (x :: xs2) ++ t from rfl]
    rw [takeWhile_append_all Char.isDigit (x :: xs2) t hall2,
      dropWhile_append_all Char.isDigit (x :: xs2) t hall2, ht1, ht2, List.append_nil]

theorem scanParts_exact (r0 r1 r2 r3 : List Char) (ip fp ep t : List Char)
    (hi : scanIntPart r0 = some (ip, r1)) (hf : scanFracPart r1 = (fp, r2))
    (he : scanExpPart r2 = (ep, r3))
    (ht : ∀ d u, t = d :: u → Char.isDigit d = false ∧ d ≠ '.' ∧ d ≠ 'e' ∧ d ≠ 'E') :
    scanIntPart ((ip ++ (fp ++ ep)) ++ t) = some (ip, fp ++ (ep ++ t)) ∧
    scanFracPart (fp ++ (ep ++ t)) = (fp, ep ++ t) ∧
    scanExpPart (ep ++ t) = (ep, t) := by
  obtain ⟨-, hips⟩ := scanIntPart_shape r0 ip r1 hi
  obtain ⟨-, hfps⟩ := scanFracPart_shape r1 fp r2 hf
  obtain ⟨-, heps⟩ := scanExpPart_shape r2 ep r3 he
  have hexp : scanExpPart (ep ++ t) = (ep, t) := by
    rcases heps with rfl | ⟨e, rest1, rfl, hee, hshape⟩
    · rw [List.nil_append]
      exact scanExpPart_exact_nil t (fun d u hdu => ⟨(ht d u hdu).2.2.1, (ht d u hdu).2.2.2⟩)
    · rcases hshape with ⟨sgn, xs, rfl, hsgn, hne, hall⟩ | ⟨hne, hall, hx⟩
      · exact scanExpPart_exact_sign e sgn xs t hee hsgn hne hall
          (fun d u hdu => (ht d u hdu).1)
      · exact scanExpPart_exact_nosign e rest1 t hee hne hall hx
          (fun d u hdu => (ht d u hdu).1)
  have hept_nodigit : ∀ d u, ep ++ t = d :: u → Char.isDigit d = false := by
    intro d u hdu
    rcases heps with rfl | ⟨e, rest1, rfl, hee, hshape⟩
    · rw [List.nil_append] at hdu
      exact (ht d u hdu).1
    · rw [List.cons_append] at hdu
      injection hdu with h1 _
      subst h1
      rcases hee with rfl | rfl <;> decide
  have hept_nodot : ∀ d u, ep ++ t = d :: u → d ≠ '.' := by
    intro d u hdu
    rcases heps with rfl | ⟨e, rest1, rfl, hee, hshape⟩
    · rw [List.nil_append] at hdu
      exact (ht d u hdu).2.1
    · rw [List.cons_append] at hdu
      injection hdu with h1 _
      subst h1
      rcases hee with rfl | rfl <;> decide
  have hfrac : scanFracPart (fp ++ (ep ++ t)) = (fp, ep ++ t) := by
    rcases hfps with rfl | ⟨ds, rfl, hne, hall⟩
    · rw [List.nil_append]
      exact scanFracPart_exact_nil _ hept_nodot
    · exact scanFracPart_exact_cons ds (ep ++ t) hne hall hept_nodigit
  refine ⟨?_, hfrac, hexp⟩
  have hgoal : scanIntPart (ip ++ (fp ++ (ep ++ t))) = some (ip, fp ++ (ep ++ t)) := by
    refine scanIntPart_exact ip _ hips ?_
    intro d u hdu
    rcases hfps with rfl | ⟨ds, rfl, hne, hall⟩
    · rw [List.nil_append] at hdu
      exact hept_nodigit d u hdu
    · rw [List.cons_append] at hdu
      injection hdu with h1 _
      subst h1
      decide
  simpa [List.append_assoc] using hgoal

theorem numLitWF_shape (lit : List Char) (h : numLitWF lit = true) :
    ∃ c t, lit = c :: t ∧ (c = '-' ∨ Char.isDigit c = true) := by
  cases lit with
  | nil =>
    rw [numLitWF, parseNum] at h
    exact absurd h (by simp)
  | cons c ds =>
    refine ⟨c, ds, rfl, ?_⟩
    by_cases hc : c = '-'
    · exact Or.inl hc
    · refine Or.inr ?_
      rw [numLitWF, parseNum, if_neg hc] at h
      cases hi : scanIntPart (c :: ds) with
      | none => rw [hi] at h; exact absurd h (by simp)
      | some q =>
        rw [scanIntPart] at hi
        by_cases h0 : c = '0'
        · subst h0
          decide
        · rw [if_neg h0] at hi
          by_cases hd : Char.isDigit c = true
          · exact hd
          · rw [if_neg hd] at hi
            exact Option.noConfusion hi

theorem expectChars_self (kw rest : List Char) : expectChars kw (kw ++ rest) = some rest := by
  induction kw with
  | nil => simp [expectChars]
  | cons c t ih => simp [expectChars, ih]

theorem hexVal_hexDigitChar (k : Nat) (h : k < 16) : hexVal (hexDigitChar k) = some k := by
  interval_cases k <;> decide

theorem hex4_digits (n : Nat) (h : n < 65536) :
    hex4 (n / 4096 % 16) (n / 256 % 16) (n / 16 % 16) (n % 16) = n := by
  unfold hex4
  omega

theorem char_ofNat_toNat (c : Char) : Char.ofNat c.toNat = c :=
  Char.ofNat_toNat c

theorem parseStringBody_uEsc (n : Nat) (tail cs r : List Char)
    (h16 : n < 65536) (hns : n < 55296 ∨ 57343 < n)
    (hb : parseStringBody tail = some (cs, r)) :
    parseStringBody (uEsc n ++ tail) = some (Char.ofNat n :: cs, r) := by
  have e1 : hexVal (hexDigitChar (n / 4096 % 16)) = some (n / 4096 % 16) :=
    hexVal_hexDigitChar _ (Nat.mod_lt _ (by omega))
  have e2 : hexVal (hexDigitChar (n / 256 % 16)) = some (n / 256 % 16) :=
    hexVal_hexDigitChar _ (Nat.mod_lt _ (by omega))
  have e3 : hexVal (hexDigitChar (n / 16 % 16)) = some (n / 16 % 16) :=
    hexVal_hexDigitChar _ (Nat.mod_lt _ (by omega))
  have e4 : hexVal (hexDigitChar (n % 16)) = some (n % 16) :=
    hexVal_hexDigitChar _ (Nat.mod_lt _ (by omega))
  have hrec := hex4_digits n h16
  show parseStringBody ('\\' :: 'u' :: hexDigitChar (n / 4096 % 16) :: hexDigitChar (n / 256 % 16)
      :: hexDigitChar (n / 16 % 16) :: hexDigitChar (n % 16) :: tail) = some (Char.ofNat n :: cs, r)
  rw [parseStringBody.eq_def]
  split
  · next x heq => simp at heq
  · next h1 h2 h3 h4 g1 g2 g3 g4 rest3 heq =>
      simp only [List.cons.injEq, true_and] at heq
      obtain ⟨ha, hb2, hc2, hd2, htail⟩ := heq
      subst ha; subst hb2; subst hc2; subst hd2; subst htail
      rw [e1, e2, e3, e4]
      simp only []
      rw [hrec, if_pos hns, hb]
  · next x h1 h2 h3 h4 rest2 hneg heq =>
      simp only [List.cons.injEq, true_and] at heq
      obtain ⟨ha, hb2, hc2, hd2, htail⟩ := heq
      subst ha; subst hb2; subst hc2; subst hd2; subst htail
      rw [e1, e2, e3, e4]
      simp only []
      rw [hrec, if_pos hns, hb]
  · next x e r2 hA hB heq =>
      simp only [List.cons.injEq, true_and] at heq
      obtain ⟨he, hr2⟩ := heq
      exact (hB _ _ _ _ _ he.symm hr2.symm).elim
  · next x heq => simp at heq
  · next c0 rest0 hA2 hB2 hC2 hD2 heq =>
      simp only [List.cons.injEq, true_and] at heq
      obtain ⟨hc0, hr0⟩ := heq
      exact (hB2 _ _ _ _ _ hc0.symm hr0.symm).elim

theorem parseStringBody_esc (cs rest : List Char) :
    parseStringBody (escChars cs ++ ('"' :: rest)) = some (cs, rest) := by
  induction cs with
  | nil =>
    rw [escChars, List.nil_append, parseStringBody.eq_def]
    simp
  | cons c t ih =>
    by_cases h1 : c = '"'
    · subst h1
      rw [escChars]
      simp only [if_pos rfl, List.cons_append, List.append_assoc, List.nil_append]
      rw [parseStringBody.eq_def]
      simp [unescapeChar, ih]
    · by_cases h2 : c = '\\'
      · subst h2
        rw [escChars]
        simp only [if_neg (by decide : ¬ ('\\' : Char) = '"'), if_pos rfl, List.cons_append,
          List.append_assoc, List.nil_append]
        rw [parseStringBody.eq_def]
        simp [unescapeChar, ih]
      · by_cases h3 : c = '\n'
        · subst h3
          rw [escChars]
          simp only [if_neg (by decide : ¬ ('\n' : Char) = '"'),
            if_neg (by decide : ¬ ('\n' : Char) = '\\'), if_pos rfl, List.cons_append,
            List.append_assoc, List.nil_append]
          rw [parseStringBody.eq_def]
          simp [unescapeChar, ih]
        · by_cases h4 : c = '\r'
          · subst h4
            rw [escChars]
            simp only [if_neg (by decide : ¬ ('\r' : Char) = '"'),
              if_neg (by decide : ¬ ('\r' : Char) = '\\'),
              if_neg (by decide : ¬ ('\r' : Char) = '\n'), if_pos rfl, List.cons_append,
              List.append_assoc, List.nil_append]
            rw [parseStringBody.eq_def]
            simp [unescapeChar, ih]
          · by_cases h5 : c = '\t'
            · subst h5
              rw [escChars]
              simp only [if_neg (by decide : ¬ ('\t' : Char) = '"'),
                if_neg (by decide : ¬ ('\t' : Char) = '\\'),
                if_neg (by decide : ¬ ('\t' : Char) = '\n'),
                if_neg (by decide : ¬ ('\t' : Char) = '\r'), if_pos rfl, List.cons_append,
                List.append_assoc, List.nil_append]
              rw [parseStringBody.eq_def]
              simp [unescapeChar, ih]
            · by_cases h6 : c.toNat < 0x20 ∨ c = '<' ∨ c = '>' ∨ c = '&'
              · rw [escChars]
                simp only [if_neg h1, if_neg h2, if_neg h3, if_neg h4, if_neg h5, if_pos h6,
                  List.append_assoc]
                have h16 : c.toNat < 65536 := by
                  rcases h6 with hlt | rfl | rfl | rfl
                  · omega
                  · decide
                  · decide
                  · decide
                have hns : c.toNat < 55296 ∨ 57343 < c.toNat := by
                  rcases h6 with hlt | rfl | rfl | rfl
                  · omega
                  · decide
                  · decide
                  · decide
                have h := parseStringBody_uEsc c.toNat (escChars t ++ '"' :: rest) t rest h16 hns ih
                rwa [char_ofNat_toNat] at h
              · by_cases h7 : c.toNat = 0x2028 ∨ c.toNat = 0x2029
                · rw [escChars]
                  simp only [if_neg h1, if_neg h2, if_neg h3, if_neg h4, if_neg h5, if_neg h6,
                    if_pos h7, List.append_assoc]
                  have h16 : c.toNat < 65536 := by rcases h7 with he | he <;> omega
                  have hns : c.toNat < 55296 ∨ 57343 < c.toNat := by
                    rcases h7 with he | he <;> omega
                  have h := parseStringBody_uEsc c.toNat (escChars t ++ '"' :: rest) t rest h16
                    hns ih
                  rwa [char_ofNat_toNat] at h
                · rw [escChars]
                  simp only [if_neg h1, if_neg h2, if_neg h3, if_neg h4, if_neg h5, if_neg h6,
                    if_neg h7, List.cons_append, List.nil_append]
                  rw [parseStringBody.eq_def]
                  split
                  · next x heq => simp at heq
                  · next hh1 hh2 hh3 hh4 gg1 gg2 gg3 gg4 rest3 heq =>
                      simp only [List.cons.injEq] at heq
                      exact absurd heq.1 h2
                  · next x hh1 hh2 hh3 hh4 rest2 hneg heq =>
                      simp only [List.cons.injEq] at heq
                      exact absurd heq.1 h2
                  · next x e r2 hA hB heq =>
                      simp only [List.cons.injEq] at heq
                      exact absurd heq.1 h2
                  · next x heq =>
                      simp only [List.cons.injEq] at heq
                      exact absurd heq.1 h2
                  · next c0 rest0 hA2 hB2 hC2 hD2 heq =>
                      simp only [List.cons.injEq] at heq
                      obtain ⟨hc0, hr0⟩ := heq
                      subst hc0
                      subst hr0
                      have hge : ¬ c.toNat < 32 := fun hh => h6 (Or.inl hh)
                      rw [if_neg h1, if_neg hge, ih]

theorem parseNum_lit (lit rest : List Char) (h : numLitWF lit = true)
    (hr : okAfterNum (.num lit) rest) : parseNum (lit ++ rest) = some (.num lit, rest) := by
  have hrest : ∀ d u, rest = d :: u →
      Char.isDigit d = false ∧ d ≠ '.' ∧ d ≠ 'e' ∧ d ≠ 'E' := by
    intro d u hdu
    subst hdu
    have hx : extendsNum d = false := by simpa [okAfterNum] using hr
    simp only [extendsNum, Bool.or_eq_false_iff, decide_eq_false_iff_not] at hx
    exact ⟨hx.1.1.1, hx.1.1.2, hx.1.2, hx.2⟩
  rw [numLitWF] at h
  cases hp : parseNum lit with
  | none => rw [hp] at h; simp at h
  | some q =>
    obtain ⟨j, r9⟩ := q
    rw [hp] at h
    simp only [Bool.and_eq_true, List.isEmpty_iff, decide_eq_true_eq] at h
    obtain ⟨hr9, hj⟩ := h
    subst hr9
    subst hj
    cases lit with
    | nil => rw [parseNum] at hp; exact absurd hp (by simp)
    | cons c r0 =>
      rw [parseNum] at hp
      by_cases hc : c = '-'
      · subst hc
        rw [if_pos rfl] at hp
        cases hi : scanIntPart r0 with
        | none => rw [hi] at hp; exact absurd hp (by simp)
        | some q2 =>
          obtain ⟨ip, r1⟩ := q2
          rw [hi] at hp
          simp only [] at hp
          cases hf : scanFracPart r1 with
          | mk fp r2 =>
          rw [hf] at hp
          cases hee : scanExpPart r2 with
          | mk ep r3 =>
          rw [hee] at hp
          simp only [Option.some.injEq, Prod.mk.injEq, Json.num.injEq, List.cons.injEq,
            true_and] at hp
          obtain ⟨hlit, hr3⟩ := hp
          subst hr3
          obtain ⟨h1, h2, h3⟩ := scanParts_exact r0 r1 r2 [] ip fp ep rest hi hf hee hrest
          have hr0 : r0 = ip ++ (fp ++ ep) := by
            rw [Eq.symm hlit]
            simp [List.append_assoc]
          subst hr0
          rw [List.cons_append, parseNum, if_pos rfl]
          simp only [List.append_assoc] at h1 ⊢
          rw [h1]
          simp only [h2, h3]
      · rw [if_neg hc] at hp
        cases hi : scanIntPart (c :: r0) with
        | none => rw [hi] at hp; exact absurd hp (by simp)
        | some q2 =>
          obtain ⟨ip, r1⟩ := q2
          rw [hi] at hp
          simp only [] at hp
          cases hf : scanFracPart r1 with
          | mk fp r2 =>
          rw [hf] at hp
          cases hee : scanExpPart r2 with
          | mk ep r3 =>
          rw [hee] at hp
          simp only [Option.some.injEq, Prod.mk.injEq, Json.num.injEq] at hp
          obtain ⟨hlit, hr3⟩ := hp
          subst hr3
          obtain ⟨h1, h2, h3⟩ := scanParts_exact (c :: r0) r1 r2 [] ip fp ep rest hi hf hee hrest
          rw [List.cons_append, parseNum, if_neg hc]
          rw [show c :: (r0 ++ rest) = (c :: r0) ++ rest from rfl, Eq.symm hlit]
          simp only [List.append_assoc] at h1 ⊢
          rw [h1]
          simp only [h2, h3]

theorem jsonChars_head (j : Json) (hwf : Json.wf j = true) :
    ∃ c t, jsonChars j = c :: t ∧ isSpaceChar c = false ∧ c ≠ ']' ∧ c ≠ '}' ∧ c ≠ ',' := by
  cases j with
  | null => exact ⟨'n', _, by rw [jsonChars], by decide, by decide, by decide, by decide⟩
  | bool b =>
    cases b
    · exact ⟨'f', _, by rw [jsonChars], by decide, by decide, by decide, by decide⟩
    · exact ⟨'t', _, by rw [jsonChars], by decide, by decide, by decide, by decide⟩
  | num lit =>
    have hnw : numLitWF lit = true := by simpa [Json.wf] using hwf
    obtain ⟨c, t, rfl, hc⟩ := numLitWF_shape lit hnw
    refine ⟨c, t, by rw [jsonChars], ?_, ?_, ?_, ?_⟩ <;>
      rcases hc with rfl | hd
    · decide
    · exact (digit_facts c hd).1
    · decide
    · exact (digit_facts c hd).2.2.1
    · decide
    · exact (digit_facts c hd).2.2.2.2.1
    · decide
    · exact (digit_facts c hd).2.2.2.1
  | str s =>
    exact ⟨'"', _, by rw [jsonChars], by decide, by decide, by decide, by decide⟩
  | arr xs =>
    exact ⟨'[', _, by rw [jsonChars], by decide, by decide, by decide, by decide⟩
  | obj fs =>
    exact ⟨'{', _, by rw [jsonChars], by decide, by decide, by decide, by decide⟩

theorem arrChars_head (x : Json) (xs : JArr) (hx : Json.wf x = true) :
    ∃ c u, arrChars (.cons x xs) = c :: u ∧ isSpaceChar c = false ∧ c ≠ ']' := by
  obtain ⟨c, t, hct, hsp, hrb, _, _⟩ := jsonChars_head x hx
  refine ⟨c, t ++ (match xs with | .nil => [] | .cons _ _ => ',' :: arrChars xs), ?_, hsp, hrb⟩
  rw [arrChars.eq_def]
  simp only []
  rw [hct]
  simp [List.cons_append]

theorem objChars_head (k : String) (v : Json) (fs : JObj) :
    objChars (.cons k v fs)
      = '"' :: (escChars k.data ++
          ('"' :: ':' :: (jsonChars v ++
            (match fs with | .nil => [] | .cons _ _ _ => ',' :: objChars fs)))) := by
  rw [objChars.eq_def]

mutual

theorem jneed_le : ∀ j : Json, Json.wf j = true → jneed j ≤ (jsonChars j).length
  | .null, _ => by rw [jneed, jsonChars]; simp
  | .bool b, _ => by cases b <;> simp [jneed, jsonChars]
  | .num lit, h => by
    have hnw : numLitWF lit = true := by simpa [Json.wf] using h
    obtain ⟨c, t, rfl, _⟩ := numLitWF_shape lit hnw
    simp [jneed, jsonChars]
  | .str s, _ => by rw [jneed, jsonChars]; simp
  | .arr xs, h => by
    have h' := jneedA_le xs (by simpa [Json.wf] using h)
    rw [jneed, jsonChars]
    simp only [List.length_cons, List.length_append]
    omega
  | .obj fs, h => by
    have h' := jneedO_le fs (by simpa [Json.wf] using h)
    rw [jneed, jsonChars]
    simp only [List.length_cons, List.length_append]
    omega

theorem jneedA_le : ∀ xs : JArr, JArr.wf xs = true → jneedA xs ≤ 1 + (arrChars xs).length
  | .nil, _ => by rw [jneedA, arrChars]; simp
  | .cons x xs, h => by
    have hp : Json.wf x = true ∧ JArr.wf xs = true := by
      simpa [JArr.wf, Bool.and_eq_true] using h
    have h1 := jneed_le x hp.1
    cases xs with
    | nil =>
      rw [jneedA, jneedA, arrChars]
      simp only [List.length_append]
      simp
      omega
    | cons y ys =>
      have h2 := jneedA_le (.cons y ys) hp.2
      rw [jneedA, arrChars]
      simp only [List.length_append, List.length_cons]
      omega

theorem jneedO_le : ∀ fs : JObj, JObj.wf fs = true → jneedO fs ≤ 1 + (objChars fs).length
  | .nil, _ => by rw [jneedO, objChars]; simp
  | .cons k v fs, h => by
    have hp : Json.wf v = true ∧ JObj.wf fs = true := by
      simpa [JObj.wf, Bool.and_eq_true] using h
    have h1 := jneed_le v hp.1
    cases fs with
    | nil =>
      rw [jneedO, jneedO, objChars]
      simp only [List.cons_append, List.append_assoc, List.length_cons, List.length_append]
      omega
    | cons k2 v2 fs2 =>
      have h2 := jneedO_le (.cons k2 v2 fs2) hp.2
      rw [jneedO, objChars]
      simp only [List.cons_append, List.append_assoc, List.length_cons, List.length_append]
      omega

end

/-- Parsing the serialized form of a well-formed JSON value recovers the
value exactly, for any fuel at least the value's `jneed` measure. -/
theorem parse_render_aux : ∀ fuel : Nat,
    (∀ j rest, Json.wf j = true → jneed j ≤ fuel → okAfterNum j rest →
        parseVal fuel (jsonChars j ++ rest) = some (j, rest)) ∧
    (∀ x xs rest, JArr.wf (.cons x xs) = true → jneedA (.cons x xs) ≤ fuel →
        parseElems fuel (arrChars (.cons x xs) ++ ']' :: rest) = some (.cons x xs, rest)) ∧
    (∀ k v fs rest, JObj.wf (.cons k v fs) = true → jneedO (.cons k v fs) ≤ fuel →
        parseFields fuel (objChars (.cons k v fs) ++ '}' :: rest)
          = some (.cons k v fs, rest)) := by
  intro fuel
  induction fuel with
  | zero =>
    refine ⟨fun j rest hwf hle hok => absurd hle ?_,
      fun x xs rest hwf hle => absurd hle ?_,
      fun k v fs rest hwf hle => absurd hle ?_⟩
    · cases j <;> simp [jneed] <;> omega
    · simp [jneedA]
    · simp [jneedO]
  | succ f ih =>
    obtain ⟨ihV, ihA, ihO⟩ := ih
    refine ⟨?_, ?_, ?_⟩
    · intro j rest hwf hle hok
      cases j with
      | null =>
        show parseVal (f + 1) ('n' :: 'u' :: 'l' :: 'l' :: rest) = some (.null, rest)
        rw [parseVal.eq_def]
        simp [skipWs_cons, isSpaceChar, expectChars_self, expectChars]
      | bool b =>
        cases b with
        | false =>
          show parseVal (f + 1) ('f' :: 'a' :: 'l' :: 's' :: 'e' :: rest) = some (.bool false, rest)
          rw [parseVal.eq_def]
          simp [skipWs_cons, isSpaceChar, expectChars_self, expectChars]
        | true =>
          show parseVal (f + 1) ('t' :: 'r' :: 'u' :: 'e' :: rest) = some (.bool true, rest)
          rw [parseVal.eq_def]
          simp [skipWs_cons, isSpaceChar, expectChars_self, expectChars]
      | num lit =>
        have hnw : numLitWF lit = true := by simpa [Json.wf] using hwf
        obtain ⟨c, t, rfl, hc⟩ := numLitWF_shape lit hnw
        have hfacts : isSpaceChar c = false ∧ c ≠ '"' ∧ c ≠ 'n' ∧ c ≠ '[' ∧ c ≠ 't' ∧
            c ≠ '{' ∧ c ≠ 'f' := by
          rcases hc with rfl | hd
          · refine ⟨by decide, ?_, ?_, ?_, ?_, ?_, ?_⟩ <;> decide
          · obtain ⟨a0, _, _, _, _, _, a1, a2, a3, a4, a5, a6⟩ := digit_facts c hd
            exact ⟨a0, a1, a2, a3, a4, a5, a6⟩
        obtain ⟨fsp, f1, f2, f3, f4, f5, f6⟩ := hfacts
        have hshape : jsonChars (.num (c :: t)) ++ rest = c :: (t ++ rest) := by
          rw [jsonChars, List.cons_append]
        rw [hshape, parseVal.eq_def]
        have hpn := parseNum_lit (c :: t) rest hnw hok
        rw [List.cons_append] at hpn
        simp [skipWs_cons, fsp, f1, f2, f3, f4, f5, f6, hpn]
      | str s =>
        have hshape : jsonChars (.str s) ++ rest
            = '"' :: (escChars s.data ++ ('"' :: rest)) := by
          rw [jsonChars]
          simp [List.cons_append, List.append_assoc]
        rw [hshape, parseVal.eq_def]
        simp [skipWs_cons, isSpaceChar, parseStringBody_esc, string_mk_data]
      | arr xs =>
        cases xs with
        | nil =>
          have hshape : jsonChars (.arr .nil) ++ rest = '[' :: ']' :: rest := by
            rw [jsonChars, arrChars.eq_def]
            simp
          rw [hshape, parseVal.eq_def]
          simp [skipWs_cons, isSpaceChar]
        | cons x xs2 =>
          have hwfA : JArr.wf (.cons x xs2) = true := by simpa [Json.wf] using hwf
          have hx : Json.wf x = true := by
            have h' := hwfA
            simp only [JArr.wf, Bool.and_eq_true] at h'
            exact h'.1
          obtain ⟨d, u, hdu, hdsp, hdrb⟩ := arrChars_head x xs2 hx
          have hfuel : jneedA (.cons x xs2) ≤ f := by
            rw [jneed] at hle
            omega
          have hAp := ihA x xs2 rest hwfA hfuel
          have hshape : jsonChars (.arr (.cons x xs2)) ++ rest
              = '[' :: (arrChars (.cons x xs2) ++ ']' :: rest) := by
            rw [jsonChars]
            simp [List.cons_append, List.append_assoc]
          rw [hshape, parseVal.eq_def]
          rw [hdu] at hAp ⊢
          simp only [List.cons_append, List.append_assoc] at hAp ⊢
          simp [skipWs_cons, isSpaceChar]
          rw [skipWs_cons _ _ hdsp]
          simp [hdrb, hAp]
      | obj fs =>
        cases fs with
        | nil =>
          have hshape : jsonChars (.obj .nil) ++ rest = '{' :: '}' :: rest := by
            rw [jsonChars, objChars.eq_def]
            simp
          rw [hshape, parseVal.eq_def]
          simp [skipWs_cons, isSpaceChar]
        | cons k v fs2 =>
          have hwfO : JObj.wf (.cons k v fs2) = true := by simpa [Json.wf] using hwf
          have hfuel : jneedO (.cons k v fs2) ≤ f := by
            rw [jneed] at hle
            omega
          have hOp := ihO k v fs2 rest hwfO hfuel
          have hshape : jsonChars (.obj (.cons k v fs2)) ++ rest
              = '{' :: (objChars (.cons k v fs2) ++ '}' :: rest) := by
            rw [jsonChars]
            simp [List.cons_append, List.append_assoc]
          rw [hshape, parseVal.eq_def]
          rw [objChars_head] at hOp ⊢
          simp only [List.cons_append, List.append_assoc] at hOp ⊢
          simp [skipWs_cons, isSpaceChar, hOp]
    · intro x xs rest hwf hle
      have hp : Json.wf x = true ∧ JArr.wf xs = true := by
        simpa [JArr.wf, Bool.and_eq_true] using hwf
      cases xs with
      | nil =>
        have hfx : jneed x ≤ f := by
          rw [jneedA, jneedA] at hle
          omega
        have hV := ihV x (']' :: rest) hp.1 hfx (okAfterNum_cons _ _ _ (by decide))
        have hshape : arrChars (.cons x .nil) ++ ']' :: rest = jsonChars x ++ ']' :: rest := by
          rw [arrChars.eq_def]
          simp
        rw [hshape, parseElems.eq_def]
        simp [hV, skipWs_cons, isSpaceChar]
      | cons y ys =>
        have hfx : jneed x ≤ f := by
          rw [jneedA] at hle
          omega
        have hfA : jneedA (.cons y ys) ≤ f := by
          rw [jneedA] at hle
          omega
        have hV := ihV x (',' :: (arrChars (.cons y ys) ++ ']' :: rest)) hp.1 hfx
          (okAfterNum_cons _ _ _ (by decide))
        have hA2 := ihA y ys rest hp.2 hfA
        have hshape : arrChars (.cons x (.cons y ys)) ++ ']' :: rest
            = jsonChars x ++ (',' :: (arrChars (.cons y ys) ++ ']' :: rest)) := by
          rw [arrChars.eq_def]
          simp [List.append_assoc]
        rw [hshape, parseElems.eq_def]
        simp [hV, skipWs_cons, isSpaceChar, hA2]
    · intro k v fs rest hwf hle
      have hp : Json.wf v = true ∧ JObj.wf fs = true := by
        simpa [JObj.wf, Bool.and_eq_true] using hwf
      cases fs with
      | nil =>
        have hfv : jneed v ≤ f := by
          rw [jneedO, jneedO] at hle
          omega
        have hV := ihV v ('}' :: rest) hp.1 hfv (okAfterNum_cons _ _ _ (by decide))
        have hshape : objChars (.cons k v .nil) ++ '}' :: rest
            = '"' :: (escChars k.data ++ ('"' :: (':' :: (jsonChars v ++ ('}' :: rest))))) := by
          rw [objChars_head]
          simp [List.cons_append, List.append_assoc]
        rw [hshape, parseFields.eq_def]
        simp [skipWs_cons, isSpaceChar, parseStringBody_esc, hV, string_mk_data]
      | cons k2 v2 fs2 =>
        have hfv : jneed v ≤ f := by
          rw [jneedO] at hle
          omega
        have hfO : jneedO (.cons k2 v2 fs2) ≤ f := by
          rw [jneedO] at hle
          omega
        have hV := ihV v (',' :: (objChars (.cons k2 v2 fs2) ++ '}' :: rest)) hp.1 hfv
          (okAfterNum_cons _ _ _ (by decide))
        have hO2 := ihO k2 v2 fs2 rest hp.2 hfO
        have hshape : objChars (.cons k v (.cons k2 v2 fs2)) ++ '}' :: rest
            = '"' :: (escChars k.data ++
                ('"' :: (':' :: (jsonChars v ++
                  (',' :: (objChars (.cons k2 v2 fs2) ++ '}' :: rest)))))) := by
          rw [objChars_head]
          simp [List.cons_append, List.append_assoc]
        rw [hshape, parseFields.eq_def]
        simp [skipWs_cons, isSpaceChar, parseStringBody_esc, hV, hO2, string_mk_data]


theorem data_string_mk (cs : List Char) : (String.mk cs).data = cs := rfl

theorem parseTop_render (j : Json) (hwf : Json.wf j = true) :
    parseTop (Json.render j) = some j := by
  have hle : jneed j ≤ (jsonChars j).length + 1 :=
    le_trans (jneed_le j hwf) (Nat.le_succ _)
  have h := (parse_render_aux ((jsonChars j).length + 1)).1 j [] hwf hle (okAfterNum_nil j)
  rw [List.append_nil] at h
  simp [parseTop, Json.render, data_string_mk, h, skipWs]

theorem parseTop_render_obj (fs : JObj) (hwf : JObj.wf fs = true) :
    parseTopObj (Json.render (.obj fs)) = some fs.toList := by
  have h := parseTop_render (.obj fs) (by simpa [Json.wf] using hwf)
  simp [parseTopObj, h]

theorem pred_foldl_insert {α β : Type} (P : α → Prop) (kf : β → String) (vf : β → α) :
    ∀ (l : List β) (base : List (String × α)), (∀ p ∈ base, P p.2) → (∀ x ∈ l, P (vf x)) →
      ∀ p ∈ l.foldl (fun acc x => insertGo acc (kf x) (vf x)) base, P p.2 := by
  intro l
  induction l with
  | nil => intro base hb _ p hp; exact hb p hp
  | cons x t ih =>
    intro base hb hl p hp
    refine ih _ ?_ (fun y hy => hl y (List.mem_cons_of_mem _ hy)) p hp
    intro q hq
    rcases mem_insertGo _ _ _ q hq with h1 | h1
    · exact hb q h1
    · rw [h1]
      exact hl x (List.mem_cons_self _ _)

theorem lastDetail_mem (k : String) :
    ∀ (events : List TriggerEvent) (d : GoValue), lastDetail k events = some d →
      ∃ e, e ∈ events ∧ e.Detail = d := by
  intro events
  induction events with
  | nil => intro d hd; simp [lastDetail] at hd
  | cons e t ih =>
    intro d hd
    rw [lastDetail] at hd
    cases hlt : lastDetail k t with
    | some d2 =>
      rw [hlt] at hd
      simp only [Option.some.injEq] at hd
      subst hd
      obtain ⟨e2, he2, hd2⟩ := ih d2 hlt
      exact ⟨e2, List.mem_cons_of_mem _ he2, hd2⟩
    | none =>
      rw [hlt] at hd
      by_cases hn : e.Name = k
      · rw [if_pos hn] at hd
        simp only [Option.some.injEq] at hd
        exact ⟨e, List.mem_cons_self _ _, hd⟩
      · rw [if_neg hn] at hd
        simp at hd

theorem marshal_toJson_of_wf (d : GoValue) (h : detailWf d = true) :
    marshalGoValue d = some (GoValue.toJson d) := by
  cases d with
  | fromJson j => rfl
  | unserializable => simp [detailWf] at h

theorem parseTop_empty : parseTop "" = none := by decide

theorem parseTopObj_none_of_parseTop (s : String) (h : parseTop s = none) :
    parseTopObj s = none := by
  simp [parseTopObj, h]

theorem unmarshalMap_failed (s : String) (hnp : parseTopObj s = none)
    (hnn : parseTop s ≠ some .null) : unmarshalMap s = .failed := by
  rw [unmarshalMap]
  cases hp : parseTop s with
  | none => rfl
  | some j =>
    cases j with
    | obj fs =>
      rw [parseTopObj, hp] at hnp
      exact Option.noConfusion hnp
    | null => exact absurd hp hnn
    | bool b => rfl
    | num lit => rfl
    | str s2 => rfl
    | arr xs => rfl

theorem baseEvents_list (s : String) (hne : s ≠ "") (hnp : parseTopObj s = none)
    (hnn : parseTop s ≠ some .null) :
    baseEvents s
      = some ((splitComma s).foldl (fun acc ev => insertGo acc (trimS ev) goNull) []) := by
  rw [baseEvents, if_neg hne, unmarshalMap_failed s hnp hnn]

theorem baseEvents_null (s : String) (hn : parseTop s = some .null) :
    baseEvents s = none := by
  have hne : s ≠ "" := by
    intro he
    rw [he, parseTop_empty] at hn
    exact Option.noConfusion hn
  rw [baseEvents, if_neg hne, unmarshalMap, hn]

theorem triggerWithDetail_null_noEvents (header : String) (w : Headers)
    (hn : parseTop (headerGet w header) = some .null) :
    triggerWithDetail header [] w = some (headerSet w header "null", none) := by
  rw [triggerWithDetail, baseEvents_null _ hn]

theorem trigger_empty_prior (header : String) (names : List String) (w : Headers)
    (h : headerGet w header = "") :
    trigger header names w = some (headerSet w header (joinCS (names.map trimS)), none) := by
  simp [trigger, h]

theorem trigger_list_prior (header : String) (names : List String) (w : Headers)
    (hne : headerGet w header ≠ "") (hp : parseTop (headerGet w header) = none) :
    trigger header names w
      = some (headerSet w header
          (joinCS ((splitComma (headerGet w header)).map trimS ++ names.map trimS)), none) := by
  simp [trigger, hne, hp]

theorem triggerWithDetail_spec (header : String) (events : List TriggerEvent) (w : Headers)
    (base : List (String × GoValue))
    (hbase : baseEvents (headerGet w header) = some base)
    (hdetails : ∀ e ∈ events, detailWf e.Detail = true)
    (hbase_wf : ∀ p ∈ base, detailWf p.2 = true)
    (hbase_nodup : (keysOf base).Nodup) :
    ∃ out fieldsOut,
      triggerWithDetail header events w = some (headerSet w header out, none) ∧
      parseTopObj out = some fieldsOut ∧
      ∀ k, findVal k fieldsOut
        = match lastDetail k events with
          | some d => marshalGoValue d
          | none => (findVal k base).map GoValue.toJson := by
  have hM_wf : ∀ p ∈ mergedEvents events base, detailWf p.2 = true := by
    intro p hp
    exact pred_foldl_insert (fun v => detailWf v = true) TriggerEvent.Name TriggerEvent.Detail
      events _ hbase_wf hdetails p hp
  have hM_nodup : (keysOf (mergedEvents events base)).Nodup :=
    nodup_keys_foldl TriggerEvent.Name TriggerEvent.Detail events _ hbase_nodup
  have hseq : seqMap (mergedEvents events base)
      = some (mapVals GoValue.toJson (mergedEvents events base)) :=
    seqMap_eq_of_detailWf _ hM_wf
  have hLwf : ∀ kv ∈ mapVals GoValue.toJson (mergedEvents events base),
      Json.wf kv.2 = true := wf_mapVals_toJson _ hM_wf
  have hsortwf : ∀ kv ∈ sortByKey (mapVals GoValue.toJson (mergedEvents events base)),
      Json.wf kv.2 = true := by
    intro kv hkv
    exact hLwf kv ((sortByKey_perm _).mem_iff.mp hkv)
  have hofwf : JObj.wf (JObj.ofList
      (sortByKey (mapVals GoValue.toJson (mergedEvents events base)))) = true :=
    wf_ofList _ hsortwf
  have hmarshal : marshalMap (mergedEvents events base)
      = some (Json.render (.obj (JObj.ofList
          (sortByKey (mapVals GoValue.toJson (mergedEvents events base)))))) := by
    rw [marshalMap, hseq]
  refine ⟨Json.render (.obj (JObj.ofList
      (sortByKey (mapVals GoValue.toJson (mergedEvents events base))))),
    sortByKey (mapVals GoValue.toJson (mergedEvents events base)), ?_, ?_, ?_⟩
  · simp only [triggerWithDetail.eq_def, hbase, hmarshal]
  · rw [parseTop_render_obj _ hofwf]
    rw [toList_ofList]
  · intro k
    have hLnodup : (keysOf (mapVals GoValue.toJson (mergedEvents events base))).Nodup := by
      rw [keysOf_mapVals]
      exact hM_nodup
    have hsortnodup :
        (keysOf (sortByKey (mapVals GoValue.toJson (mergedEvents events base)))).Nodup := by
      have hperm := (sortByKey_perm
        (mapVals GoValue.toJson (mergedEvents events base))).map Prod.fst
      exact (hperm.nodup_iff).mpr hLnodup
    have h1 : findVal k (sortByKey (mapVals GoValue.toJson (mergedEvents events base)))
        = findVal k (mapVals GoValue.toJson (mergedEvents events base)) :=
      findVal_perm (sortByKey_perm _) hsortnodup k
    rw [h1, findVal_mapVals]
    rw [mergedEvents, findVal_foldl_insertEvents]
    cases hlt : lastDetail k events with
    | some d =>
      obtain ⟨e, he, hd⟩ := lastDetail_mem k events d hlt
      have hdw : detailWf d = true := by
        rw [Eq.symm hd]
        exact hdetails e he
      simp [marshal_toJson_of_wf d hdw]
    | none => simp

/-! ### Lemmas: the decorator chain -/

theorem SetHeaders_ok : ∀ (fns : List HeaderDecorator) (w : Headers),
    (∀ g ∈ fns, ∀ w', (g w').2 = none) → SetHeaders w fns = (applyAll w fns, none) := by
  intro fns
  induction fns with
  | nil => intro w _; rw [SetHeaders, applyAll]; rfl
  | cons g t ih =>
    intro w h
    have hg : (g w).2 = none := h g (List.mem_cons_self _ _) w
    have hgw : g w = ((g w).1, none) := by
      rw [Eq.symm hg]
    have happ : applyAll w (g :: t) = applyAll (g w).1 t := by
      rw [applyAll, applyAll, List.foldl_cons]
    rw [SetHeaders, hgw, happ]
    show SetHeaders (g w).1 t = (applyAll (g w).1 t, none)
    exact ih (g w).1 (fun x hx w' => h x (List.mem_cons_of_mem _ hx) w')

theorem SetHeaders_fail : ∀ (pre : List HeaderDecorator) (w : Headers)
    (fn : HeaderDecorator) (post : List HeaderDecorator) (e : HxError) (w1 : Headers),
    (∀ g ∈ pre, ∀ w', (g w').2 = none) → fn (applyAll w pre) = (w1, some e) →
    SetHeaders w (pre ++ fn :: post) = (w1, some e) := by
  intro pre
  induction pre with
  | nil =>
    intro w fn post e w1 _ hfn
    rw [applyAll] at hfn
    simp only [List.foldl_nil] at hfn
    rw [List.nil_append, SetHeaders, hfn]
  | cons g t ih =>
    intro w fn post e w1 h hfn
    have hg : (g w).2 = none := h g (List.mem_cons_self _ _) w
    have hgw : g w = ((g w).1, none) := by
      rw [Eq.symm hg]
    have happ : applyAll w (g :: t) = applyAll (g w).1 t := by
      rw [applyAll, applyAll, List.foldl_cons]
    rw [happ] at hfn
    rw [List.cons_append, SetHeaders, hgw]
    show SetHeaders (g w).1 (t ++ fn :: post) = (w1, some e)
    exact ih (g w).1 fn post e w1 (fun x hx w' => h x (List.mem_cons_of_mem _ hx) w') hfn

/-! ### Lemmas: re-splitting a joined event list -/

theorem triggerWithDetail_list_spec (header : String) (events : List TriggerEvent) (w : Headers)
    (hne : headerGet w header ≠ "") (hnpo : parseTopObj (headerGet w header) = none)
    (hnn : parseTop (headerGet w header) ≠ some .null)
    (hdetails : ∀ e ∈ events, detailWf e.Detail = true) :
    ∃ out fieldsOut,
      triggerWithDetail header events w = some (headerSet w header out, none) ∧
      parseTopObj out = some fieldsOut ∧
      ∀ k, findVal k fieldsOut = specListMergeLookup (headerGet w header) events k := by
  have hbase := baseEvents_list _ hne hnpo hnn
  have hbase_wf : ∀ p ∈ (splitComma (headerGet w header)).foldl
      (fun acc ev => insertGo acc (trimS ev) goNull) [], detailWf p.2 = true := by
    exact pred_foldl_insert (fun v => detailWf v = true) trimS (fun _ => goNull)
      (splitComma (headerGet w header)) [] (by intro p hp; simp at hp)
      (fun x hx => by show detailWf goNull = true; rfl)
  have hbase_nodup : (keysOf ((splitComma (headerGet w header)).foldl
      (fun acc ev => insertGo acc (trimS ev) goNull) [])).Nodup :=
    nodup_keys_foldl trimS (fun _ => goNull) _ [] (by simp [keysOf])
  obtain ⟨out, fieldsOut, h1, h2, h3⟩ :=
    triggerWithDetail_spec header events w _ hbase hdetails hbase_wf hbase_nodup
  refine ⟨out, fieldsOut, h1, h2, ?_⟩
  intro k
  rw [h3 k]
  cases hlt : lastDetail k events with
  | some d => simp [specListMergeLookup, hlt]
  | none =>
    simp only [specListMergeLookup, hlt]
    rw [findVal_foldl_const]
    by_cases hk : k ∈ (splitComma (headerGet w header)).map trimS
    · simp [hk, goNull, GoValue.toJson]
    · simp [hk, findVal]

/-! ### The claims -/

/-- Claim C2: for every prior header value that fails to parse as JSON and
every non-empty sequence of new events at least one of which carries a
detail (all details JSON-serializable, as the spec requires of details),
`triggerWithDetail` writes a JSON object whose mapping sends every
comma-split, whitespace-trimmed piece of the prior value to null unless
overwritten by a new event of the same name, each new event to its
serialized detail (null when the detail is nil), and no other key to
anything. -/
theorem C2_list_prior_merge (header : String) (w : Headers) (events : List TriggerEvent)
    (hne : headerGet w header ≠ "")
    (hnoparse : parseTop (headerGet w header) = none)
    (hnonempty : events ≠ [])
    (hdetail : ∃ e ∈ events, e.Detail ≠ goNull)
    (hdetails : ∀ e ∈ events, detailWf e.Detail = true) :
    ∃ out fieldsOut,
      triggerWithDetail header events w = some (headerSet w header out, none) ∧
      parseTopObj out = some fieldsOut ∧
      ∀ k, findVal k fieldsOut = specListMergeLookup (headerGet w header) events k :=
  triggerWithDetail_list_spec header events w hne
    (parseTopObj_none_of_parseTop _ hnoparse)
    (fun he => Option.noConfusion (hnoparse ▸ he)) hdetails

/-- Claim C2 witness: the spec's scenario, prior `"e1"` plus event
`("e2", "d")`, whose merge is `{"e1":null,"e2":"d"}`. -/
theorem C2_list_prior_merge_witness :
    ∃ out fieldsOut,
      triggerWithDetail HeaderTrigger [{ Name := "e2", Detail := .fromJson (.str "d") }]
          [(HeaderTrigger, "e1")]
        = some (headerSet [(HeaderTrigger, "e1")] HeaderTrigger out, none) ∧
      parseTopObj out = some fieldsOut ∧
      ∀ k, findVal k fieldsOut
        = specListMergeLookup "e1" [{ Name := "e2", Detail := .fromJson (.str "d") }] k :=
  C2_list_prior_merge HeaderTrigger [(HeaderTrigger, "e1")]
    [{ Name := "e2", Detail := .fromJson (.str "d") }]
    (by decide) (by first | decide) (by decide) (by first | decide) (by decide)

/-- Claim C5: if JSON serialization of the merged event mapping fails in
`triggerWithDetail` (some supplied detail has no valid JSON
representation), the decorator returns the serialization error and the
sink's header state is returned unchanged.  The hypothesis
`baseEvents … = some base` says the merge reached the map-building step
(`json.Marshal` is only ever attempted there). -/
theorem C5_marshal_failure (header : String) (events : List TriggerEvent) (w : Headers)
    (base : List (String × GoValue))
    (hbase : baseEvents (headerGet w header) = some base)
    (hfail : marshalMap (mergedEvents events base) = none) :
    triggerWithDetail header events w = some (w, some HxError.marshalError) := by
  simp only [triggerWithDetail.eq_def, hbase, hfail]

/-- Claim C5 witness: an unserializable detail aborts the merge and leaves
the header sink exactly as it was. -/
theorem C5_marshal_failure_witness :
    triggerWithDetail HeaderTrigger [{ Name := "e", Detail := .unserializable }]
        [(HeaderTrigger, "e1")]
      = some ([(HeaderTrigger, "e1")], some HxError.marshalError) :=
  C5_marshal_failure HeaderTrigger [{ Name := "e", Detail := .unserializable }]
    [(HeaderTrigger, "e1")] [("e1", goNull)] (by decide) (by decide)

/-- Claim C3: with an absent or empty prior value, the detail-free trigger
merge (via `Trigger`, `TriggerAfterSettle` and `TriggerAfterSwap`) writes
the whitespace-trimmed names joined with `", "` in input order (duplicates
preserved, since `List.map` keeps order and multiplicity) and returns no
error. -/
theorem C3_empty_prior_join (names : List String) (w : Headers) :
    (headerGet w HeaderTrigger = "" →
      Trigger names w = some (headerSet w HeaderTrigger (joinCS (names.map trimS)), none)) ∧
    (headerGet w HeaderTriggerAfterSettle = "" →
      TriggerAfterSettle names w
        = some (headerSet w HeaderTriggerAfterSettle (joinCS (names.map trimS)), none)) ∧
    (headerGet w HeaderTriggerAfterSwap = "" →
      TriggerAfterSwap names w
        = some (headerSet w HeaderTriggerAfterSwap (joinCS (names.map trimS)), none)) :=
  ⟨fun h => trigger_empty_prior _ names w h,
   fun h => trigger_empty_prior _ names w h,
   fun h => trigger_empty_prior _ names w h⟩

/-- Claim C3 witness: `Trigger ["event1", " event2 "]` on an empty sink
writes `"event1, event2"`. -/
theorem C3_empty_prior_join_witness :
    Trigger ["event1", " event2 "] []
      = some (headerSet [] HeaderTrigger (joinCS (["event1", " event2 "].map trimS)), none) :=
  (C3_empty_prior_join ["event1", " event2 "] []).1 (by decide)

/-- Claim C4: `SetHeaders` applies the decorators strictly in input order;
with no failure it returns `none` and the sink is the in-order fold of the
decorators; at the first failing decorator it returns that decorator's
error immediately, no later decorator is executed (the result does not
depend on `post`), and the returned sink is exactly the state after the
earlier decorators and the failing one (no rollback). -/
theorem C4_decorator_chain (w : Headers) :
    (∀ fns : List HeaderDecorator, (∀ g ∈ fns, ∀ w', (g w').2 = none) →
      SetHeaders w fns = (applyAll w fns, none)) ∧
    (∀ (pre : List HeaderDecorator) (fn : HeaderDecorator) (post : List HeaderDecorator)
        (e : HxError) (w1 : Headers),
      (∀ g ∈ pre, ∀ w', (g w').2 = none) → fn (applyAll w pre) = (w1, some e) →
      SetHeaders w (pre ++ fn :: post) = (w1, some e)) :=
  ⟨fun fns h => SetHeaders_ok fns w h,
   fun pre fn post e w1 h1 h2 => SetHeaders_fail pre w fn post e w1 h1 h2⟩

/-- Claim C4 witness: the spec's scenario — `SetHeader "A" "1"`, then a
failing decorator, then `SetHeader "B" "2"`: the error is returned, header
`A` keeps value `"1"` and header `B` is absent. -/
theorem C4_decorator_chain_witness :
    SetHeaders [] [SetHeader "A" "1", fun w => (w, some (HxError.custom 7)), SetHeader "B" "2"]
      = ([("A", "1")], some (HxError.custom 7)) ∧
    headerGet [("A", "1")] "A" = "1" ∧ findVal "B" [("A", "1")] = none := by
  refine ⟨?_, by decide, by decide⟩
  have h := (C4_decorator_chain []).2 [SetHeader "A" "1"]
    (fun w => (w, some (HxError.custom 7))) [SetHeader "B" "2"] (HxError.custom 7) [("A", "1")]
    (by intro g hg w'
        simp only [List.mem_singleton] at hg
        subst hg
        rfl) (by rfl)
  exact h

/-- Claim C6: for every one of the 8 `Swap` values `v`,
`SwapFromString (v.toString)` returns `(v, nil)`; and for every string
outside the 8 canonical wire forms it returns `SwapInnerHTML` together
with the non-nil "invalid Swap value" error. -/
theorem C6_swap_codec :
    (∀ v : Swap, SwapFromString v.toString = (v, none)) ∧
    (∀ s : String,
      s ∉ (["innerHTML", "outerHTML", "beforebegin", "afterbegin", "beforeend",
            "afterend", "delete", "none"] : List String) →
      SwapFromString s = (.SwapInnerHTML, some ("invalid Swap value: " ++ s))) := by
  constructor
  · intro v
    cases v <;> rfl
  · intro s hs
    simp only [List.mem_cons, List.not_mem_nil, or_false, not_or] at hs
    obtain ⟨h1, h2, h3, h4, h5, h6, h7, h8⟩ := hs
    simp [SwapFromString, h1, h2, h3, h4, h5, h6, h7, h8]

/-- Claim C6 witness: round-trip at `SwapDelete` and decode failure at
`"bogus"`. -/
theorem C6_swap_codec_witness :
    SwapFromString Swap.SwapDelete.toString = (.SwapDelete, none) ∧
    SwapFromString "bogus" = (.SwapInnerHTML, some ("invalid Swap value: " ++ "bogus")) :=
  ⟨C6_swap_codec.1 .SwapDelete, C6_swap_codec.2 "bogus" (by decide)⟩

/-- Claim C7 counterexample: the claim says a new event name is never
whitespace-trimmed when appended as an entry to the comma-joined list
form, but `trigger` stores `"e"` — not `" e "` — for the new event name
`" e "` on an empty prior. -/
theorem C7_counterexample :
    Trigger [" e "] [] = some ([(HeaderTrigger, "e")], none) ∧ ("e" : String) ≠ " e " :=
  ⟨by decide, by decide⟩

/-- Claim C7 as amended: a new event name is used exactly as supplied —
never trimmed — as a JSON key in the merged object form (the event map
binds exactly `e.Name`, matched by exact case-sensitive equality), but in
the comma-joined list form `trigger` appends the whitespace-trimmed name;
names parsed from a prior comma-separated value are always trimmed. -/
theorem C7_trimming_asymmetry (header : String) (names : List String)
    (events : List TriggerEvent) (w : Headers) :
    (headerGet w header = "" →
      trigger header names w = some (headerSet w header (joinCS (names.map trimS)), none)) ∧
    (headerGet w header ≠ "" → parseTop (headerGet w header) = none →
      trigger header names w
        = some (headerSet w header
            (joinCS ((splitComma (headerGet w header)).map trimS ++ names.map trimS)),
           none)) ∧
    (∀ k, findVal k (mergedEvents events []) = lastDetail k events) := by
  refine ⟨fun h => trigger_empty_prior header names w h,
    fun h1 h2 => trigger_list_prior header names w h1 h2, ?_⟩
  intro k
  rw [mergedEvents, findVal_foldl_insertEvents]
  cases lastDetail k events <;> simp [findVal]

/-- Claim C7 witness: the untrimmed name `" e "` becomes the JSON key
`" e "` in the object form but the entry `"e"` in the list form. -/
theorem C7_trimming_asymmetry_witness :
    trigger HeaderTrigger [" e "] []
      = some (headerSet [] HeaderTrigger (joinCS ([" e "].map trimS)), none) ∧
    findVal " e " (mergedEvents [{ Name := " e ", Detail := goNull }] [])
      = lastDetail " e " [{ Name := " e ", Detail := goNull }] :=
  ⟨(C7_trimming_asymmetry HeaderTrigger [" e "] [] []).1 (by decide),
   (C7_trimming_asymmetry HeaderTrigger []
      [{ Name := " e ", Detail := goNull }] []).2.2 " e "⟩

/-- Claim C9: the record the `WithHTMX` middleware builds has boolean
fields true exactly when the corresponding request header is the literal
string `"true"`, and string fields equal to the corresponding header
values (the empty string when absent, so a non-HTMX request yields all
default values); inside the wrapped handler `GetRequestHeaders` returns
this record with `ok = true`, and without the middleware (no stored
record) it returns the zero record with `ok = false`. -/
theorem C9_middleware_extraction (h : Headers) (ctx : Context) :
    ((htmxRequestOfHeaders h).IsBoosted = true ↔ headerGet h headerBoosted = "true") ∧
    ((htmxRequestOfHeaders h).IsHistoryRestoreRequest = true ↔
      headerGet h headerHistoryRestoreRequest = "true") ∧
    ((htmxRequestOfHeaders h).IsHTMXRequest = true ↔ headerGet h headerRequest = "true") ∧
    (htmxRequestOfHeaders h).CurrentURL = headerGet h headerCurrentURL ∧
    (htmxRequestOfHeaders h).Target = headerGet h headerTarget ∧
    (htmxRequestOfHeaders h).Trigger = headerGet h headerTrigger ∧
    (htmxRequestOfHeaders h).TriggerName = headerGet h headerTriggerName ∧
    GetRequestHeaders (WithHTMX h ctx) = (htmxRequestOfHeaders h, true) ∧
    (findVal HTMXRequestKey ctx = none → GetRequestHeaders ctx = (emptyHTMXRequest, false)) := by
  refine ⟨?_, ?_, ?_, rfl, rfl, rfl, rfl, ?_, ?_⟩
  · simp [htmxRequestOfHeaders]
  · simp [htmxRequestOfHeaders]
  · simp [htmxRequestOfHeaders]
  · simp [GetRequestHeaders, WithHTMX, findVal]
  · intro hc
    simp [GetRequestHeaders, hc]

/-- Claim C9 witness: an HTMX request with `HX-Request: true` is extracted
with `IsHTMXRequest` set, and an empty context yields the zero record with
`ok = false`. -/
theorem C9_middleware_extraction_witness :
    ((htmxRequestOfHeaders [("HX-Request", "true")]).IsHTMXRequest = true ↔
      headerGet [("HX-Request", "true")] headerRequest = "true") ∧
    GetRequestHeaders (WithHTMX [("HX-Request", "true")] [])
      = (htmxRequestOfHeaders [("HX-Request", "true")], true) ∧
    GetRequestHeaders [] = (emptyHTMXRequest, false) := by
  have h := C9_middleware_extraction [("HX-Request", "true")] []
  exact ⟨h.2.2.1, h.2.2.2.2.2.2.2.1, h.2.2.2.2.2.2.2.2 (by decide)⟩

end Hx
